import Mathlib

/-!
Verification of the JSON-to-Excel pipeline (src/json_to_excel.py).

Shallow embedding conventions:
* Python strings are modelled as lists of characters (abbreviation Str below).
* Parsed JSON data (the Structural Value of the spec) is the inductive type Json;
  numbers are modelled as integers.
* Python dicts (insertion ordered, unique keys) are association lists; the
  assignment d[k] = v is dictInsert, which updates in place when the key is
  present and appends otherwise.
* json.loads is an external library routine; the extractor is parameterised by
  a parse oracle of type ParseFn returning either a value or an error detail.
* Diagnostics printed by process_error are modelled as an emitted list.
-/

namespace J2X

abbrev Str := List Char

/-- Parsed JSON values, as produced by json.loads: None, bool, number
    (modelled as an integer), str, list, dict (insertion-ordered pairs). -/
inductive Json where
  | null : Json
  | bool (b : Bool) : Json
  | num (n : Int) : Json
  | str (s : Str) : Json
  | arr (xs : List Json) : Json
  | obj (kvs : List (Str × Json)) : Json

abbrev Dict := List (Str × Json)

-- Constants from the source file.
def INITIAL_POSITION : Nat := 0
def DICT_SEPARATOR : Str := ['.']
def ARRAY_PREFIX : Str := ['[']
def ARRAY_SUFFIX : Str := [']']
def EMPTY_ARRAY : Str := ['[', ']']
def TRUNCATION_SEPERATOR : Str := ['.', '.', '.']
def COLUMN_PADDING : Nat := 2
def DEFAULT_VALUE : Str := []
def SNIPPET_LENGTH : Nat := 50
def JSON_END_PATTERN : Str := ['"', 'E', 'X', 'A', 'M', 'P', 'L', 'E', '"', '}']

/-- Python truthiness of a parsed JSON value (used by the source's
    if json_obj: test). -/
def pyTruthy : Json → Bool
  | Json.null => false
  | Json.bool b => b
  | Json.num n => !(n == 0)
  | Json.str s => !(s == [])
  | Json.arr [] => false
  | Json.arr (_ :: _) => true
  | Json.obj [] => false
  | Json.obj (_ :: _) => true

/-- A value is a leaf (never dict or list); leaves are what flattening stores. -/
def isPrim : Json → Bool
  | Json.arr _ => false
  | Json.obj _ => false
  | _ => true

/-- Decimal digits of n, least significant first, computed with explicit fuel
    so that the definition is structurally recursive. -/
def natDigitsRev (fuel n : Nat) : List Nat :=
  match fuel with
  | 0 => []
  | fuel' + 1 => if n = 0 then [] else n % 10 :: natDigitsRev fuel' (n / 10)

/-- Decimal representation of a natural number, as Python's str builds it. -/
def natToStr (n : Nat) : Str :=
  if n = 0 then ['0'] else ((natDigitsRev n n).map Nat.digitChar).reverse

/-- Decimal representation of an integer, as Python's str builds it. -/
def intToStr (i : Int) : Str :=
  if i < 0 then '-' :: natToStr i.natAbs else natToStr i.toNat

/-- Python str() on the leaf values that flattening produces.  Containers are
    never stringified by the pipeline (flattening only stores leaves, see
    flatten_values_prim below), so their Python repr is not modelled. -/
def pyStr : Json → Str
  | Json.null => ['N', 'o', 'n', 'e']
  | Json.bool true => ['T', 'r', 'u', 'e']
  | Json.bool false => ['F', 'a', 'l', 's', 'e']
  | Json.num n => intToStr n
  | Json.str s => s
  | Json.arr _ => []
  | Json.obj _ => []

/-- stringify_value from the source: None becomes DEFAULT_VALUE, any other
    value becomes str(value). -/
def stringify_value : Json → Str
  | Json.null => DEFAULT_VALUE
  | v => pyStr v

/-- Python dict assignment d[k] = v on an insertion-ordered association list:
    replaces the value in place when the key is present, appends otherwise. -/
def dictInsert (d : Dict) (k : Str) (v : Json) : Dict :=
  if d.any (fun kv => kv.1 == k) then
    d.map (fun kv => if kv.1 == k then (k, v) else kv)
  else d ++ [(k, v)]

/-- Child key synthesis in flatten_dict: parent.key when the parent key is
    truthy (non-empty), else the key itself. -/
def childKey (p k : Str) : Str :=
  if p = [] then k else p ++ DICT_SEPARATOR ++ k

/-- create_array_key from the source. -/
def create_array_key (p : Str) (i : Nat) : Str :=
  p ++ ARRAY_PREFIX ++ natToStr i ++ ARRAY_SUFFIX

mutual

/-- flatten_dict from the source: iterates the dict's pairs in order,
    recursing into dict and list values and assigning leaves directly. -/
def flatten_dict : List (Str × Json) → Str → Dict → Dict
  | [], _, fd => fd
  | (k, v) :: rest, p, fd =>
    match v with
    | Json.obj kvs => flatten_dict rest p (flatten_dict kvs (childKey p k) fd)
    | Json.arr xs => flatten_dict rest p (flatten_list xs (childKey p k) fd)
    | leaf => flatten_dict rest p (dictInsert fd (childKey p k) leaf)
termination_by kvs _ _ => sizeOf kvs
decreasing_by all_goals (simp_wf; try omega)

/-- flatten_list from the source: an empty list stores the EMPTY_ARRAY
    sentinel under the parent key (handle_empty_list); otherwise each element
    is processed at its array key in index order. -/
def flatten_list (xs : List Json) (p : Str) (fd : Dict) : Dict :=
  match xs with
  | [] => dictInsert fd p (Json.str EMPTY_ARRAY)
  | x :: rest => flatten_items x rest p fd 0
termination_by sizeOf xs
decreasing_by all_goals (simp_wf; try omega)

/-- The enumerate loop inside flatten_list, with the current item, the
    remaining items and the current index made explicit. -/
def flatten_items (item : Json) (rest : List Json) (p : Str) (fd : Dict) (i : Nat) : Dict :=
  match rest with
  | [] => process_list_item item (create_array_key p i) fd
  | y :: rest2 => flatten_items y rest2 p (process_list_item item (create_array_key p i) fd) (i + 1)
termination_by sizeOf item + sizeOf rest
decreasing_by all_goals (simp_wf; try omega)

/-- process_list_item from the source. -/
def process_list_item (item : Json) (array_key : Str) (fd : Dict) : Dict :=
  match item with
  | Json.obj kvs => flatten_dict kvs array_key fd
  | Json.arr xs => flatten_list xs array_key fd
  | leaf => dictInsert fd array_key leaf
termination_by sizeOf item
decreasing_by all_goals (simp_wf; try omega)

end

/-- flatten_json from the source: dispatch on the top-level value; a primitive
    is assigned directly under the parent key. -/
def flatten_json (v : Json) (p : Str) : Dict :=
  match v with
  | Json.obj kvs => flatten_dict kvs p []
  | Json.arr xs => flatten_list xs p []
  | leaf => dictInsert [] p leaf

/-- convert_to_excel_rows from the source: flatten each record with the empty
    parent key and stringify every value, keeping keys and their order. -/
def convert_to_excel_rows (records : List Json) : List (List (Str × Str)) :=
  records.map (fun r => (flatten_json r DEFAULT_VALUE).map (fun kv => (kv.1, stringify_value kv.2)))

/-! ## Record extraction (marker mode) -/

/-- The pattern occurs in the content at index i (substring check). -/
def occursAt (content pat : Str) (i : Nat) : Bool :=
  decide (i + pat.length ≤ content.length) && ((content.drop i).take pat.length == pat)

/-- Scan forward from index i, with explicit fuel, for the first occurrence. -/
def pyFindAux (content pat : Str) (i : Nat) : Nat → Option Nat
  | 0 => none
  | fuel + 1 => if occursAt content pat i then some i else pyFindAux content pat (i + 1) fuel

/-- Python str.find(pat, start): index of the first occurrence at or after
    start, or none (Python returns -1). -/
def pyFind (content pat : Str) (start : Nat) : Option Nat :=
  pyFindAux content pat start (content.length + 1 - start)

/-- find_json_positions from the source.  The end scan looks for the fixed
    literal JSON_END_PATTERN, starting at the start-marker position. -/
def find_json_positions (content start_pattern : Str) (current_position : Nat) :
    Option (Nat × Nat) :=
  match pyFind content start_pattern current_position with
  | none => none
  | some start_pos =>
    match pyFind content JSON_END_PATTERN start_pos with
    | none => none
    | some end_pos => some (start_pos, end_pos)

/-- extract_json_string from the source: the slice content[start_pos :
    end_pos + len(JSON_END_PATTERN)] and the advanced position. -/
def extract_json_string (content : Str) (start_pos end_pos : Nat) : Str × Nat :=
  let end_pos_with_pattern := end_pos + JSON_END_PATTERN.length
  ((content.drop start_pos).take (end_pos_with_pattern - start_pos), end_pos_with_pattern)

/-- create_error_snippet from the source. -/
def create_error_snippet (json_str : Str) : Str :=
  if json_str.length > SNIPPET_LENGTH then json_str.take SNIPPET_LENGTH ++ TRUNCATION_SEPERATOR
  else json_str

/-- The formatted ERROR_JSON_PARSE message. -/
def errorParseMsg (start_pos end_pos : Nat) (error_details : Str) : Str :=
  ('E' :: 'r' :: 'r' :: 'o' :: 'r' :: ' ' :: 'p' :: 'a' :: 'r' :: 's' :: 'i' :: 'n' :: 'g' ::
    ' ' :: 'J' :: 'S' :: 'O' :: 'N' :: ' ' :: 'a' :: 't' :: ' ' :: 'p' :: 'o' :: 's' :: 'i' ::
    't' :: 'i' :: 'o' :: 'n' :: ' ' :: []) ++
  natToStr start_pos ++ ['-'] ++ natToStr end_pos ++ [':', ' '] ++ error_details

/-- A diagnostic as printed by process_error: the formatted message and the
    snippet line. -/
abbrev Diag := Str × Str

/-- The external JSON parser (json.loads), supplied as an oracle: a value on
    success, the decoder's error detail on failure. -/
abbrev ParseFn := Str → Except Str Json

/-- parse_json_string from the source: (value, None) on success, (None,
    (message, snippet)) on a decode error. -/
def parse_json_string (parse : ParseFn) (json_str : Str) (start_pos end_pos : Nat) :
    Option Json × Option Diag :=
  match parse json_str with
  | Except.ok v => (some v, none)
  | Except.error err =>
    (none, some (errorParseMsg start_pos end_pos err, create_error_snippet json_str))

/-- process_json_item from the source: (json_obj, error, stop_loop,
    new_position).  handle_process_result is the identity here because the
    result always has the four-component shape. -/
def process_json_item (parse : ParseFn) (content : Str) (current_position : Nat)
    (start_pattern : Str) : Option Json × Option Diag × Bool × Option Nat :=
  match find_json_positions content start_pattern current_position with
  | none => (none, none, true, none)
  | some (start_pos, end_pos) =>
    let se := extract_json_string content start_pos end_pos
    let pe := parse_json_string parse se.1 start_pos end_pos
    (pe.1, pe.2, false, some se.2)

/-- process_error from the source: the printed diagnostic, if any, as an
    emitted list. -/
def process_error : Option Diag → List Diag
  | some er => [er]
  | none => []

/-- Truthiness of the json_obj variable (None or a parsed value). -/
def pyTruthyOpt : Option Json → Bool
  | none => false
  | some v => pyTruthy v

theorem pyFindAux_sound (content pat : Str) :
    ∀ fuel i j, pyFindAux content pat i fuel = some j →
      i ≤ j ∧ occursAt content pat j = true := by
  intro fuel
  induction fuel with
  | zero => intro i j h; simp [pyFindAux] at h
  | succ fuel ih =>
    intro i j h
    simp only [pyFindAux] at h
    by_cases ho : occursAt content pat i = true
    · simp [ho] at h; subst h; exact ⟨Nat.le_refl _, ho⟩
    · simp [ho] at h
      have := ih (i + 1) j h
      exact ⟨Nat.le_of_succ_le this.1, this.2⟩

theorem pyFind_sound (content pat : Str) (start j : Nat)
    (h : pyFind content pat start = some j) :
    start ≤ j ∧ occursAt content pat j = true :=
  pyFindAux_sound content pat _ start j h

theorem occursAt_le (content pat : Str) (i : Nat) (h : occursAt content pat i = true) :
    i + pat.length ≤ content.length := by
  simp only [occursAt, Bool.and_eq_true, decide_eq_true_eq] at h
  exact h.1

/-- When find_json_positions succeeds, the positions it returns satisfy the
    scan order and the end occurrence lies inside the content. -/
theorem find_json_positions_some (content sp : Str) (pos s e : Nat)
    (h : find_json_positions content sp pos = some (s, e)) :
    pos ≤ s ∧ s ≤ e ∧ occursAt content JSON_END_PATTERN e = true ∧
      pyFind content sp pos = some s ∧ pyFind content JSON_END_PATTERN s = some e := by
  unfold find_json_positions at h
  split at h
  · simp at h
  rename_i s0 hs
  split at h
  · simp at h
  rename_i e0 he
  simp only [Option.some.injEq, Prod.mk.injEq] at h
  obtain ⟨rfl, rfl⟩ := h
  have hs' := pyFind_sound content sp pos s0 hs
  have he' := pyFind_sound content JSON_END_PATTERN s0 e0 he
  exact ⟨hs'.1, he'.1, he'.2, hs, he⟩

/-- When the loop does not stop, the advanced position is strictly larger and
    still within the content: this bounds the scan. -/
theorem process_json_item_advance (parse : ParseFn) (content : Str) (pos : Nat)
    (sp : Str) (o : Option Json) (er : Option Diag) (np : Option Nat)
    (h : process_json_item parse content pos sp = (o, er, false, np)) :
    ∃ n, np = some n ∧ pos < n ∧ n ≤ content.length := by
  unfold process_json_item at h
  cases hf : find_json_positions content sp pos with
  | none => rw [hf] at h; simp at h
  | some se =>
    obtain ⟨s, e⟩ := se
    rw [hf] at h
    simp only [extract_json_string, Prod.mk.injEq] at h
    obtain ⟨-, -, -, h4⟩ := h
    obtain ⟨h1, h2, h3, -, -⟩ := find_json_positions_some content sp pos s e hf
    have hlen : e + JSON_END_PATTERN.length ≤ content.length := occursAt_le _ _ _ h3
    have hpos : (0 : Nat) < JSON_END_PATTERN.length := by simp [JSON_END_PATTERN]
    exact ⟨e + JSON_END_PATTERN.length, h4.symm, by omega, hlen⟩

/-- The while-loop of extract_multiple_objects: json_objects and the emitted
    diagnostics are threaded as accumulators, current_position advances to
    new_position each iteration; truthy parsed objects are appended, otherwise
    process_error runs. -/
def extract_loop (parse : ParseFn) (content start_pattern : Str) (pos : Nat)
    (objs : List Json) (diags : List Diag) : List Json × List Diag :=
  match h : process_json_item parse content pos start_pattern with
  | (_, _, true, _) => (objs, diags)
  | (o, er, false, some newPos) =>
    if pyTruthyOpt o then
      extract_loop parse content start_pattern newPos (objs ++ o.toList) diags
    else
      extract_loop parse content start_pattern newPos objs (diags ++ process_error er)
  | (_, _, false, none) => (objs, diags)
termination_by content.length - pos
decreasing_by
  all_goals
    obtain ⟨n, hn, h1, h2⟩ := process_json_item_advance _ _ _ _ _ _ _ h
    cases hn; omega

/-- extract_multiple_objects from the source.  Note that end_pattern is
    accepted but never read: the end scan inside find_json_positions uses the
    JSON_END_PATTERN literal. -/
def extract_multiple_objects (parse : ParseFn) (content start_pattern end_pattern : Str) :
    List Json × List Diag :=
  extract_loop parse content start_pattern INITIAL_POSITION [] []

/-! ## Column widths

calculate_column_width operates on the pandas DataFrame built from the rows.
Modelled from the library interface: building a DataFrame from a list of dicts
fills a key absent from a row with the float NaN, and Series.astype(str)
renders that NaN as the three-character string nan, while leaving the present
string values unchanged. -/

abbrev Row := List (Str × Str)

def NAN_STR : Str := ['n', 'a', 'n']

/-- The stringified DataFrame cell for one row and one column. -/
def dfCell (row : Row) (col : Str) : Str :=
  match row.find? (fun kv => kv.1 == col) with
  | some kv => kv.2
  | none => NAN_STR

/-- calculate_column_width from the source: the maximum stringified cell
    length in the column (max_data_width), then max with the column name
    length, plus COLUMN_PADDING. -/
def calculate_column_width (rows : List Row) (column_name : Str) : Nat :=
  let max_data_width := (rows.map (fun r => (dfCell r column_name).length)).foldl Nat.max 0
  Nat.max max_data_width column_name.length + COLUMN_PADDING

/-! ## Pure entry lists produced by flattening

The flatten functions thread a Python dict through the recursion.  The
following functions compute the same entries as a pure list, in traversal
order, without the dict's overwrite-on-collision behaviour; flattening is the
left fold of dictInsert over them (theorems flatten_dict_entries etc.). -/

mutual

/-- All (key, leaf) entries that flattening value v under parent p assigns. -/
def entriesJ : Json → Str → List (Str × Json)
  | Json.obj kvs, p => entriesD kvs p
  | Json.arr [], p => [(p, Json.str EMPTY_ARRAY)]
  | Json.arr (x :: rest), p => entriesItems x rest p 0
  | v, p => [(p, v)]
termination_by v _ => sizeOf v
decreasing_by all_goals (simp_wf; try omega)

/-- Entries contributed by the pairs of an object. -/
def entriesD : List (Str × Json) → Str → List (Str × Json)
  | [], _ => []
  | (k, v) :: rest, p => entriesJ v (childKey p k) ++ entriesD rest p
termination_by kvs _ => sizeOf kvs
decreasing_by all_goals (simp_wf; try omega)

/-- Entries contributed by list elements from index i on. -/
def entriesItems (item : Json) (rest : List Json) (p : Str) (i : Nat) : List (Str × Json) :=
  match rest with
  | [] => entriesJ item (create_array_key p i)
  | y :: rest2 => entriesJ item (create_array_key p i) ++ entriesItems y rest2 p (i + 1)
termination_by sizeOf item + sizeOf rest
decreasing_by all_goals (simp_wf; try omega)

end

/-- Left fold of dictInsert, starting from an accumulator dict. -/
def insertAll (acc : Dict) (es : List (Str × Json)) : Dict :=
  es.foldl (fun d kv => dictInsert d kv.1 kv.2) acc

mutual

/-- Whether flattening the value contributes at least one entry.  Primitives
    and empty lists always do; a container contributes exactly when one of its
    members does, so in particular an empty object contributes nothing. -/
def producesEntry : Json → Bool
  | Json.obj kvs => producesEntryD kvs
  | Json.arr [] => true
  | Json.arr (x :: rest) => producesEntryL (x :: rest)
  | _ => true
termination_by v => sizeOf v
decreasing_by all_goals (simp_wf; try omega)

def producesEntryD : List (Str × Json) → Bool
  | [] => false
  | (_, v) :: rest => producesEntry v || producesEntryD rest
termination_by kvs => sizeOf kvs
decreasing_by all_goals (simp_wf; try omega)

def producesEntryL : List Json → Bool
  | [] => false
  | x :: rest => producesEntry x || producesEntryL rest
termination_by xs => sizeOf xs
decreasing_by all_goals (simp_wf; try omega)

end

mutual

/-- Keys appearing in a value are clean: every object key anywhere inside is
    non-empty, contains neither the separator dot nor the opening bracket, and
    is unique within its object (as Python dict keys always are). -/
def cleanJ : Json → Bool
  | Json.obj kvs => cleanD kvs
  | Json.arr xs => cleanL xs
  | _ => true
termination_by v => sizeOf v
decreasing_by all_goals (simp_wf; try omega)

def cleanD : List (Str × Json) → Bool
  | [] => true
  | (k, v) :: rest =>
    !(k == []) && !(k.contains '.') && !(k.contains '[') &&
      !(rest.any (fun kv => kv.1 == k)) && cleanJ v && cleanD rest
termination_by kvs => sizeOf kvs
decreasing_by all_goals (simp_wf; try omega)

def cleanL : List Json → Bool
  | [] => true
  | x :: rest => cleanJ x && cleanL rest
termination_by xs => sizeOf xs
decreasing_by all_goals (simp_wf; try omega)

end

mutual

/-- Key suffixes (relative to a non-empty parent key) of the entries that
    flattening a value produces. -/
def relKeysJ : Json → List Str
  | Json.obj kvs => relKeysD kvs
  | Json.arr [] => [[]]
  | Json.arr (x :: rest) => relItems x rest 0
  | _ => [[]]
termination_by v => sizeOf v
decreasing_by all_goals (simp_wf; try omega)

def relKeysD : List (Str × Json) → List Str
  | [] => []
  | (k, v) :: rest => (relKeysJ v).map (fun s => DICT_SEPARATOR ++ (k ++ s)) ++ relKeysD rest
termination_by kvs => sizeOf kvs
decreasing_by all_goals (simp_wf; try omega)

def relItems (item : Json) (rest : List Json) (i : Nat) : List Str :=
  match rest with
  | [] => (relKeysJ item).map (fun s => ARRAY_PREFIX ++ (natToStr i ++ (ARRAY_SUFFIX ++ s)))
  | y :: rest2 =>
    (relKeysJ item).map (fun s => ARRAY_PREFIX ++ (natToStr i ++ (ARRAY_SUFFIX ++ s))) ++
      relItems y rest2 (i + 1)
termination_by sizeOf item + sizeOf rest
decreasing_by all_goals (simp_wf; try omega)

end

/-- Key suffixes at the root (empty parent key): a top-level object key is not
    preceded by the separator. -/
def rootKeysD : List (Str × Json) → List Str
  | [] => []
  | (k, v) :: rest => (relKeysJ v).map (fun s => k ++ s) ++ rootKeysD rest

/-- Keys of the entries at the root. -/
def rootKeys : Json → List Str
  | Json.obj kvs => rootKeysD kvs
  | Json.arr [] => [[]]
  | Json.arr (x :: rest) => relItems x rest 0
  | _ => [[]]

/-- Shape of a relative key suffix: empty, or starting with the separator dot
    or the array opening bracket. -/
def Shaped (s : Str) : Prop := s = [] ∨ (∃ t, s = '.' :: t) ∨ ∃ t, s = '[' :: t

/-! ## Well-formed records and chains of records -/

/-- A well-formed marker-delimited record followed by the rest of the corpus:
    the record begins with the start marker, the first occurrence of the end
    pattern (scanning from the record's start) ends exactly at the record's
    end, and the record parses to a truthy value.  Records carved out by the
    scanner always end in the literal end pattern and hence parse, when they
    parse at all, to non-empty objects, which are truthy in Python. -/
def WFRecord (parse : ParseFn) (sp w rest : Str) (v : Json) : Prop :=
  sp <+: w ∧ JSON_END_PATTERN.length ≤ w.length ∧
    pyFind (w ++ rest) JSON_END_PATTERN 0 = some (w.length - JSON_END_PATTERN.length) ∧
    parse w = Except.ok v ∧ pyTruthy v = true

/-- A malformed marker-delimited record: carved out the same way, but the
    parse oracle rejects it with the given error detail. -/
def MalformedRecord (parse : ParseFn) (sp m rest err : Str) : Prop :=
  sp <+: m ∧ JSON_END_PATTERN.length ≤ m.length ∧
    pyFind (m ++ rest) JSON_END_PATTERN 0 = some (m.length - JSON_END_PATTERN.length) ∧
    parse m = Except.error err

/-- The corpus text formed by concatenating the records of a chain. -/
def chainText (rs : List (Str × Json)) : Str :=
  (rs.map Prod.fst).foldr (fun a b => a ++ b) []

/-- A chain of well-formed records, each delimited as the scanner will see it
    against the remainder of the corpus. -/
def WFChain (parse : ParseFn) (sp : Str) : List (Str × Json) → Str → Prop
  | [], _ => True
  | (w, v) :: rest, tail => WFRecord parse sp w (chainText rest ++ tail) v ∧
      WFChain parse sp rest tail

/-! ## Column width model per the specification -/

/-- The width formula exactly as the claim states it: a row lacking the column
    is treated as holding the default empty-string text. -/
def width_per_claim (rows : List Row) (col : Str) : Nat :=
  Nat.max col.length
    ((rows.map (fun r =>
      (((r.find? (fun kv => kv.1 == col)).map Prod.snd).getD DEFAULT_VALUE).length)).foldr
        Nat.max 0) + COLUMN_PADDING

/-- The width formula with absent cells as pandas actually stringifies them:
    the three-character text nan. -/
def width_with_nan (rows : List Row) (col : Str) : Nat :=
  Nat.max col.length
    ((rows.map (fun r => (dfCell r col).length)).foldr Nat.max 0) + COLUMN_PADDING

/-! ## Concrete fixtures for the extraction witnesses

wGood begins with the start pattern and ends with the JSON_END_PATTERN
literal and is valid JSON; mBad has the same delimiters but is invalid JSON
(an equals sign in place of the colon); the oracle mirrors json.loads on
these inputs. -/

def wGood : Str := "\x7b\"a\": \"EXAMPLE\"\x7d".toList

def vGood : Json := Json.obj [(['a'], Json.str ("EXAMPLE".toList))]

def mBad : Str := "\x7b\"b\"= \"EXAMPLE\"\x7d".toList

def spGood : Str := "\x7b\"".toList

def tailBad : Str := "\x7b\"unterminated".toList

def errVal : Str := "Expecting value".toList

def parseOracle : ParseFn :=
  fun s => if s == wGood then Except.ok vGood else Except.error errVal

/-! ## Properties of dictInsert and insertAll -/

theorem dictInsert_length (d : Dict) (k : Str) (v : Json) :
    d.length ≤ (dictInsert d k v).length := by
  unfold dictInsert
  split <;> simp

theorem dictInsert_keys_present (d : Dict) (k : Str) (v : Json)
    (h : d.any (fun kv => kv.1 == k) = true) :
    (dictInsert d k v).map Prod.fst = d.map Prod.fst := by
  unfold dictInsert
  rw [if_pos h, List.map_map]
  apply List.map_congr_left
  intro kv _
  by_cases hk : kv.1 == k
  · simp only [Function.comp_apply, if_pos hk]
    exact (eq_of_beq hk).symm
  · simp only [Function.comp_apply, if_neg hk]

theorem not_mem_keys_any (d : Dict) (k : Str) (h : k ∉ d.map Prod.fst) :
    d.any (fun kv => kv.1 == k) = false := by
  rw [List.any_eq_false]
  intro kv hkv
  intro hb
  exact h ((eq_of_beq hb) ▸ List.mem_map_of_mem Prod.fst hkv)

theorem dictInsert_not_mem (d : Dict) (k : Str) (v : Json) (h : k ∉ d.map Prod.fst) :
    dictInsert d k v = d ++ [(k, v)] := by
  unfold dictInsert
  rw [if_neg]
  rw [not_mem_keys_any d k h]
  simp

theorem dictInsert_keys_nodup (d : Dict) (k : Str) (v : Json)
    (h : (d.map Prod.fst).Nodup) : ((dictInsert d k v).map Prod.fst).Nodup := by
  by_cases hp : d.any (fun kv => kv.1 == k) = true
  · rw [dictInsert_keys_present d k v hp]; exact h
  · have hnm : k ∉ d.map Prod.fst := by
      intro hmem
      obtain ⟨kv, hkv, hfst⟩ := List.mem_map.mp hmem
      exact hp (List.any_eq_true.mpr ⟨kv, hkv, by simp [hfst]⟩)
    rw [dictInsert_not_mem d k v hnm]
    rw [List.map_append, List.nodup_append]
    refine ⟨h, by simp, ?_⟩
    intro x hx hx2
    simp only [List.map_cons, List.map_nil, List.mem_singleton] at hx2
    exact hnm (hx2 ▸ hx)

theorem dictInsert_mem (d : Dict) (k : Str) (v : Json) (kv : Str × Json)
    (h : kv ∈ dictInsert d k v) : kv ∈ d ∨ kv = (k, v) := by
  unfold dictInsert at h
  split at h
  · obtain ⟨kv0, hkv0, heq⟩ := List.mem_map.mp h
    by_cases hb : kv0.1 == k
    · right; rw [if_pos hb] at heq; exact heq.symm
    · left; rw [if_neg hb] at heq; exact heq ▸ hkv0
  · rcases List.mem_append.mp h with h1 | h2
    · exact Or.inl h1
    · right; simpa using h2

theorem insertAll_nil (acc : Dict) : insertAll acc [] = acc := rfl

theorem insertAll_cons (acc : Dict) (k : Str) (v : Json) (es : List (Str × Json)) :
    insertAll acc ((k, v) :: es) = insertAll (dictInsert acc k v) es := rfl

theorem insertAll_one (acc : Dict) (k : Str) (v : Json) :
    insertAll acc [(k, v)] = dictInsert acc k v := rfl

theorem insertAll_append (acc : Dict) (es1 es2 : List (Str × Json)) :
    insertAll acc (es1 ++ es2) = insertAll (insertAll acc es1) es2 := by
  simp [insertAll, List.foldl_append]

theorem insertAll_length (acc : Dict) (es : List (Str × Json)) :
    acc.length ≤ (insertAll acc es).length := by
  induction es generalizing acc with
  | nil => simp [insertAll_nil]
  | cons e rest ih =>
    obtain ⟨k, v⟩ := e
    rw [insertAll_cons]
    exact Nat.le_trans (dictInsert_length acc k v) (ih _)

theorem insertAll_keys_nodup (acc : Dict) (es : List (Str × Json))
    (h : (acc.map Prod.fst).Nodup) : ((insertAll acc es).map Prod.fst).Nodup := by
  induction es generalizing acc with
  | nil => simpa [insertAll_nil] using h
  | cons e rest ih =>
    obtain ⟨k, v⟩ := e
    rw [insertAll_cons]
    exact ih _ (dictInsert_keys_nodup acc k v h)

theorem insertAll_eq_append (acc : Dict) (es : List (Str × Json))
    (h : ((acc ++ es).map Prod.fst).Nodup) : insertAll acc es = acc ++ es := by
  induction es generalizing acc with
  | nil => simp [insertAll_nil]
  | cons e rest ih =>
    obtain ⟨k, v⟩ := e
    rw [insertAll_cons]
    have hk : k ∉ acc.map Prod.fst := by
      rw [List.map_append, List.nodup_append] at h
      intro hmem
      refine h.2.2 hmem ?_
      rw [List.map_cons]
      exact List.mem_cons_self _ _
    rw [dictInsert_not_mem acc k v hk]
    have hx : ((acc ++ [(k, v)]) ++ rest) = acc ++ (k, v) :: rest := by
      rw [List.append_assoc]; rfl
    have := ih (acc ++ [(k, v)]) (by rw [hx]; exact h)
    rw [this, hx]

theorem insertAll_mem (acc : Dict) (es : List (Str × Json)) (kv : Str × Json)
    (h : kv ∈ insertAll acc es) : kv ∈ acc ∨ kv ∈ es := by
  induction es generalizing acc with
  | nil => exact Or.inl (by simpa [insertAll_nil] using h)
  | cons e rest ih =>
    obtain ⟨k, v⟩ := e
    rw [insertAll_cons] at h
    rcases ih _ h with h1 | h2
    · rcases dictInsert_mem acc k v kv h1 with ha | hb
      · exact Or.inl ha
      · exact Or.inr (by simp [hb])
    · exact Or.inr (List.mem_cons_of_mem _ h2)

theorem insertAll_nil_ne (e : Str × Json) (es : List (Str × Json)) :
    insertAll [] (e :: es) ≠ [] := by
  obtain ⟨k, v⟩ := e
  rw [insertAll_cons]
  intro hc
  have h1 : (dictInsert [] k v).length ≤ (insertAll (dictInsert [] k v) es).length :=
    insertAll_length _ _
  rw [hc] at h1
  simp [dictInsert] at h1

/-! ## Flattening computes the fold of dictInsert over the pure entries -/

mutual

theorem flatten_dict_entries (kvs : List (Str × Json)) (p : Str) (fd : Dict) :
    flatten_dict kvs p fd = insertAll fd (entriesD kvs p) := by
  cases kvs with
  | nil => simp [flatten_dict, entriesD, insertAll_nil]
  | cons kv rest =>
    obtain ⟨k, v⟩ := kv
    cases v with
    | obj kvs2 =>
      rw [show flatten_dict ((k, Json.obj kvs2) :: rest) p fd
            = flatten_dict rest p (flatten_dict kvs2 (childKey p k) fd) by
          simp [flatten_dict]]
      rw [flatten_dict_entries kvs2 (childKey p k) fd, flatten_dict_entries rest p _]
      rw [show entriesD ((k, Json.obj kvs2) :: rest) p
            = entriesD kvs2 (childKey p k) ++ entriesD rest p by simp [entriesD, entriesJ]]
      rw [insertAll_append]
    | arr xs =>
      rw [show flatten_dict ((k, Json.arr xs) :: rest) p fd
            = flatten_dict rest p (flatten_list xs (childKey p k) fd) by
          simp [flatten_dict]]
      rw [flatten_list_entries xs (childKey p k) fd, flatten_dict_entries rest p _]
      rw [show entriesD ((k, Json.arr xs) :: rest) p
            = entriesJ (Json.arr xs) (childKey p k) ++ entriesD rest p by simp [entriesD]]
      rw [insertAll_append]
    | null =>
      rw [show flatten_dict ((k, Json.null) :: rest) p fd
            = flatten_dict rest p (dictInsert fd (childKey p k) Json.null) by
          simp [flatten_dict]]
      rw [flatten_dict_entries rest p _]
      rw [show entriesD ((k, Json.null) :: rest) p
            = (childKey p k, Json.null) :: entriesD rest p by simp [entriesD, entriesJ]]
      rw [show (childKey p k, Json.null) :: entriesD rest p
            = [(childKey p k, Json.null)] ++ entriesD rest p by simp]
      rw [insertAll_append, insertAll_one]
    | bool b =>
      rw [show flatten_dict ((k, Json.bool b) :: rest) p fd
            = flatten_dict rest p (dictInsert fd (childKey p k) (Json.bool b)) by
          simp [flatten_dict]]
      rw [flatten_dict_entries rest p _]
      rw [show entriesD ((k, Json.bool b) :: rest) p
            = (childKey p k, Json.bool b) :: entriesD rest p by simp [entriesD, entriesJ]]
      rw [show (childKey p k, Json.bool b) :: entriesD rest p
            = [(childKey p k, Json.bool b)] ++ entriesD rest p by simp]
      rw [insertAll_append, insertAll_one]
    | num n =>
      rw [show flatten_dict ((k, Json.num n) :: rest) p fd
            = flatten_dict rest p (dictInsert fd (childKey p k) (Json.num n)) by
          simp [flatten_dict]]
      rw [flatten_dict_entries rest p _]
      rw [show entriesD ((k, Json.num n) :: rest) p
            = (childKey p k, Json.num n) :: entriesD rest p by simp [entriesD, entriesJ]]
      rw [show (childKey p k, Json.num n) :: entriesD rest p
            = [(childKey p k, Json.num n)] ++ entriesD rest p by simp]
      rw [insertAll_append, insertAll_one]
    | str s =>
      rw [show flatten_dict ((k, Json.str s) :: rest) p fd
            = flatten_dict rest p (dictInsert fd (childKey p k) (Json.str s)) by
          simp [flatten_dict]]
      rw [flatten_dict_entries rest p _]
      rw [show entriesD ((k, Json.str s) :: rest) p
            = (childKey p k, Json.str s) :: entriesD rest p by simp [entriesD, entriesJ]]
      rw [show (childKey p k, Json.str s) :: entriesD rest p
            = [(childKey p k, Json.str s)] ++ entriesD rest p by simp]
      rw [insertAll_append, insertAll_one]
termination_by sizeOf kvs
decreasing_by all_goals (simp_wf; try omega)

theorem flatten_list_entries (xs : List Json) (p : Str) (fd : Dict) :
    flatten_list xs p fd = insertAll fd (entriesJ (Json.arr xs) p) := by
  cases xs with
  | nil =>
    rw [show flatten_list [] p fd = dictInsert fd p (Json.str EMPTY_ARRAY) by
        simp [flatten_list]]
    rw [show entriesJ (Json.arr []) p = [(p, Json.str EMPTY_ARRAY)] by simp [entriesJ]]
    rw [insertAll_one]
  | cons x rest =>
    rw [show flatten_list (x :: rest) p fd = flatten_items x rest p fd 0 by
        simp [flatten_list]]
    rw [flatten_items_entries x rest p fd 0]
    rw [show entriesJ (Json.arr (x :: rest)) p = entriesItems x rest p 0 by simp [entriesJ]]
termination_by sizeOf xs
decreasing_by all_goals (simp_wf; try omega)

theorem flatten_items_entries (item : Json) (rest : List Json) (p : Str) (fd : Dict) (i : Nat) :
    flatten_items item rest p fd i = insertAll fd (entriesItems item rest p i) := by
  cases rest with
  | nil =>
    rw [show flatten_items item [] p fd i
          = process_list_item item (create_array_key p i) fd by simp [flatten_items]]
    rw [process_list_item_entries item (create_array_key p i) fd]
    rw [show entriesItems item [] p i = entriesJ item (create_array_key p i) by
        simp [entriesItems]]
  | cons y rest2 =>
    rw [show flatten_items item (y :: rest2) p fd i
          = flatten_items y rest2 p (process_list_item item (create_array_key p i) fd) (i + 1) by
        simp [flatten_items]]
    rw [flatten_items_entries y rest2 p _ (i + 1)]
    rw [process_list_item_entries item (create_array_key p i) fd]
    rw [show entriesItems item (y :: rest2) p i
          = entriesJ item (create_array_key p i) ++ entriesItems y rest2 p (i + 1) by
        simp [entriesItems]]
    rw [insertAll_append]
termination_by sizeOf item + sizeOf rest
decreasing_by all_goals (simp_wf; try omega)

theorem process_list_item_entries (item : Json) (array_key : Str) (fd : Dict) :
    process_list_item item array_key fd = insertAll fd (entriesJ item array_key) := by
  cases item with
  | obj kvs =>
    rw [show process_list_item (Json.obj kvs) array_key fd
          = flatten_dict kvs array_key fd by simp [process_list_item]]
    rw [flatten_dict_entries kvs array_key fd]
    rw [show entriesJ (Json.obj kvs) array_key = entriesD kvs array_key by simp [entriesJ]]
  | arr xs =>
    rw [show process_list_item (Json.arr xs) array_key fd
          = flatten_list xs array_key fd by simp [process_list_item]]
    rw [flatten_list_entries xs array_key fd]
  | null =>
    rw [show process_list_item Json.null array_key fd
          = dictInsert fd array_key Json.null by simp [process_list_item]]
    rw [show entriesJ Json.null array_key = [(array_key, Json.null)] by simp [entriesJ]]
    rw [insertAll_one]
  | bool b =>
    rw [show process_list_item (Json.bool b) array_key fd
          = dictInsert fd array_key (Json.bool b) by simp [process_list_item]]
    rw [show entriesJ (Json.bool b) array_key = [(array_key, Json.bool b)] by simp [entriesJ]]
    rw [insertAll_one]
  | num n =>
    rw [show process_list_item (Json.num n) array_key fd
          = dictInsert fd array_key (Json.num n) by simp [process_list_item]]
    rw [show entriesJ (Json.num n) array_key = [(array_key, Json.num n)] by simp [entriesJ]]
    rw [insertAll_one]
  | str s =>
    rw [show process_list_item (Json.str s) array_key fd
          = dictInsert fd array_key (Json.str s) by simp [process_list_item]]
    rw [show entriesJ (Json.str s) array_key = [(array_key, Json.str s)] by simp [entriesJ]]
    rw [insertAll_one]
termination_by sizeOf item
decreasing_by all_goals (simp_wf; try omega)

end

/-- The pure entries of a whole value at its parent key. -/
theorem flatten_json_entries (v : Json) (p : Str) :
    flatten_json v p = insertAll [] (entriesJ v p) := by
  cases v with
  | obj kvs => simpa [flatten_json, entriesJ] using flatten_dict_entries kvs p []
  | arr xs => simpa [flatten_json] using flatten_list_entries xs p []
  | null => simp [flatten_json, entriesJ, insertAll_one]
  | bool b => simp [flatten_json, entriesJ, insertAll_one]
  | num n => simp [flatten_json, entriesJ, insertAll_one]
  | str s => simp [flatten_json, entriesJ, insertAll_one]

/-! ## Decimal representations -/

theorem natDigitsRev_eq_digits : ∀ (fuel n : Nat), n ≤ fuel →
    natDigitsRev fuel n = Nat.digits 10 n := by
  intro fuel
  induction fuel with
  | zero =>
    intro n h
    have : n = 0 := Nat.le_zero.mp h
    simp [natDigitsRev, this]
  | succ fuel ih =>
    intro n h
    by_cases hn : n = 0
    · simp [natDigitsRev, hn]
    · simp only [natDigitsRev, if_neg hn]
      have hdiv : n / 10 < n := Nat.div_lt_self (Nat.pos_of_ne_zero hn) (by norm_num)
      rw [ih (n / 10) (by omega)]
      rw [Nat.digits_def' (by norm_num : (1 : Nat) < 10) (Nat.pos_of_ne_zero hn)]

theorem natToStr_eq (n : Nat) :
    natToStr n = if n = 0 then ['0'] else ((Nat.digits 10 n).map Nat.digitChar).reverse := by
  unfold natToStr
  by_cases hn : n = 0
  · simp [hn]
  · rw [if_neg hn, if_neg hn, natDigitsRev_eq_digits n n (Nat.le_refl n)]

theorem digitChar_inj : ∀ a, a < 10 → ∀ b, b < 10 →
    Nat.digitChar a = Nat.digitChar b → a = b := by decide

theorem digitChar_mem : ∀ d, d < 10 →
    Nat.digitChar d ∈ ['0', '1', '2', '3', '4', '5', '6', '7', '8', '9'] := by decide

theorem natToStr_chars (n : Nat) (c : Char) (hc : c ∈ natToStr n) :
    c ∈ ['0', '1', '2', '3', '4', '5', '6', '7', '8', '9'] := by
  rw [natToStr_eq] at hc
  by_cases hn : n = 0
  · rw [if_pos hn] at hc
    simp only [List.mem_singleton] at hc
    subst hc; decide
  · rw [if_neg hn, List.mem_reverse] at hc
    obtain ⟨d, hd, rfl⟩ := List.mem_map.mp hc
    exact digitChar_mem d (Nat.digits_lt_base (by norm_num) hd)

theorem natToStr_no_rbracket (n : Nat) : ']' ∉ natToStr n := by
  intro h
  have := natToStr_chars n ']' h
  simp at this

theorem natToStr_ne_nil (n : Nat) : natToStr n ≠ [] := by
  rw [natToStr_eq]
  by_cases hn : n = 0
  · simp [hn]
  · rw [if_neg hn]
    simp only [ne_eq, List.reverse_eq_nil_iff, List.map_eq_nil_iff]
    exact Nat.digits_ne_nil_iff_ne_zero.mpr hn

theorem map_digitChar_inj : ∀ (l1 l2 : List Nat), (∀ a ∈ l1, a < 10) → (∀ a ∈ l2, a < 10) →
    l1.map Nat.digitChar = l2.map Nat.digitChar → l1 = l2 := by
  intro l1
  induction l1 with
  | nil =>
    intro l2 _ _ h
    cases l2 with
    | nil => rfl
    | cons b l2 => simp at h
  | cons a l1 ih =>
    intro l2 h1 h2 h
    cases l2 with
    | nil => simp at h
    | cons b l2 =>
      simp only [List.map_cons, List.cons.injEq] at h
      have ha : a = b := digitChar_inj a (h1 a (by simp)) b (h2 b (by simp)) h.1
      have := ih l2 (fun x hx => h1 x (by simp [hx])) (fun x hx => h2 x (by simp [hx])) h.2
      rw [ha, this]

theorem natToStr_inj (m n : Nat) (h : natToStr m = natToStr n) : m = n := by
  rw [natToStr_eq, natToStr_eq] at h
  by_cases hm : m = 0 <;> by_cases hn : n = 0
  · rw [hm, hn]
  · rw [if_pos hm, if_neg hn] at h
    exfalso
    have h2 : (Nat.digits 10 n).map Nat.digitChar = ['0'] := by
      have := congrArg List.reverse h
      simpa using this.symm
    cases hd : Nat.digits 10 n with
    | nil => rw [hd] at h2; simp at h2
    | cons d rest =>
      rw [hd] at h2
      simp only [List.map_cons, List.cons.injEq, List.map_eq_nil_iff] at h2
      have hd10 : d < 10 := Nat.digits_lt_base (by norm_num) (by rw [hd]; simp)
      have hd0 : d = 0 := digitChar_inj d hd10 0 (by norm_num) (by rw [h2.1]; decide)
      have := Nat.ofDigits_digits 10 n
      rw [hd, h2.2, hd0] at this
      simp [Nat.ofDigits] at this
      exact hn this.symm
  · rw [if_neg hm, if_pos hn] at h
    exfalso
    have h2 : (Nat.digits 10 m).map Nat.digitChar = ['0'] := by
      have := congrArg List.reverse h
      simpa using this
    cases hd : Nat.digits 10 m with
    | nil => rw [hd] at h2; simp at h2
    | cons d rest =>
      rw [hd] at h2
      simp only [List.map_cons, List.cons.injEq, List.map_eq_nil_iff] at h2
      have hd10 : d < 10 := Nat.digits_lt_base (by norm_num) (by rw [hd]; simp)
      have hd0 : d = 0 := digitChar_inj d hd10 0 (by norm_num) (by rw [h2.1]; decide)
      have := Nat.ofDigits_digits 10 m
      rw [hd, h2.2, hd0] at this
      simp [Nat.ofDigits] at this
      exact hm this.symm
  · rw [if_neg hm, if_neg hn] at h
    have h2 := List.reverse_inj.mp h
    have h3 := map_digitChar_inj (Nat.digits 10 m) (Nat.digits 10 n)
      (fun a ha => Nat.digits_lt_base (by norm_num) ha)
      (fun a ha => Nat.digits_lt_base (by norm_num) ha) h2
    have := congrArg (Nat.ofDigits 10) h3
    rwa [Nat.ofDigits_digits, Nat.ofDigits_digits] at this

/-! ## Unique decoding of synthesized keys -/


/-- Appending a shaped suffix to a key free of the separator characters can be
    decoded uniquely. -/
theorem sep_decode : ∀ (k1 : Str), '.' ∉ k1 → '[' ∉ k1 → ∀ (k2 : Str), '.' ∉ k2 → '[' ∉ k2 →
    ∀ (s1 s2 : Str), Shaped s1 → Shaped s2 → k1 ++ s1 = k2 ++ s2 → k1 = k2 ∧ s1 = s2 := by
  intro k1
  induction k1 with
  | nil =>
    intro _ _ k2 hd2 hb2 s1 s2 hs1 _ h
    cases k2 with
    | nil => exact ⟨rfl, h⟩
    | cons c k2' =>
      exfalso
      simp only [List.nil_append, List.cons_append] at h
      rcases hs1 with rfl | ⟨t, rfl⟩ | ⟨t, rfl⟩
      · simp at h
      · have hc : c = '.' := (List.cons.injEq .. ▸ h).1.symm
        exact hd2 (hc ▸ List.mem_cons_self c k2')
      · have hc : c = '[' := (List.cons.injEq .. ▸ h).1.symm
        exact hb2 (hc ▸ List.mem_cons_self c k2')
  | cons a k1' ih =>
    intro hd1 hb1 k2 hd2 hb2 s1 s2 hs1 hs2 h
    cases k2 with
    | nil =>
      exfalso
      simp only [List.nil_append, List.cons_append] at h
      rcases hs2 with rfl | ⟨t, rfl⟩ | ⟨t, rfl⟩
      · simp at h
      · have hc : a = '.' := (List.cons.injEq .. ▸ h).1
        exact hd1 (hc ▸ List.mem_cons_self a k1')
      · have hc : a = '[' := (List.cons.injEq .. ▸ h).1
        exact hb1 (hc ▸ List.mem_cons_self a k1')
    | cons b k2' =>
      simp only [List.cons_append, List.cons.injEq] at h
      obtain ⟨rfl, h2⟩ := h
      have := ih (fun hx => hd1 (List.mem_cons_of_mem _ hx))
        (fun hx => hb1 (List.mem_cons_of_mem _ hx)) k2'
        (fun hx => hd2 (List.mem_cons_of_mem _ hx))
        (fun hx => hb2 (List.mem_cons_of_mem _ hx)) s1 s2 hs1 hs2 h2
      exact ⟨by rw [this.1], this.2⟩

/-- Digit strings followed by the closing bracket can be decoded uniquely. -/
theorem br_decode : ∀ (d1 : Str), ']' ∉ d1 → ∀ (d2 : Str), ']' ∉ d2 →
    ∀ (t1 t2 : Str), d1 ++ ']' :: t1 = d2 ++ ']' :: t2 → d1 = d2 ∧ t1 = t2 := by
  intro d1
  induction d1 with
  | nil =>
    intro _ d2 h2 t1 t2 h
    cases d2 with
    | nil => simpa using h
    | cons c d2' =>
      exfalso
      simp only [List.nil_append, List.cons_append, List.cons.injEq] at h
      exact h2 (h.1.symm ▸ List.mem_cons_self c d2')
  | cons a d1' ih =>
    intro h1 d2 h2 t1 t2 h
    cases d2 with
    | nil =>
      exfalso
      simp only [List.nil_append, List.cons_append, List.cons.injEq] at h
      exact h1 (h.1 ▸ List.mem_cons_self a d1')
    | cons b d2' =>
      simp only [List.cons_append, List.cons.injEq] at h
      obtain ⟨rfl, hh⟩ := h
      have := ih (fun hx => h1 (List.mem_cons_of_mem _ hx)) d2'
        (fun hx => h2 (List.mem_cons_of_mem _ hx)) t1 t2 hh
      exact ⟨by rw [this.1], this.2⟩

/-! ## Shapes and membership of relative key suffixes -/

theorem relKeysD_shape (kvs : List (Str × Json)) (s : Str) (h : s ∈ relKeysD kvs) :
    ∃ t, s = '.' :: t := by
  induction kvs with
  | nil => simp [relKeysD] at h
  | cons kv rest ih =>
    obtain ⟨k, v⟩ := kv
    rw [show relKeysD ((k, v) :: rest)
          = (relKeysJ v).map (fun s => DICT_SEPARATOR ++ (k ++ s)) ++ relKeysD rest by
        simp [relKeysD]] at h
    rcases List.mem_append.mp h with h1 | h2
    · obtain ⟨s0, _, rfl⟩ := List.mem_map.mp h1
      exact ⟨k ++ s0, rfl⟩
    · exact ih h2

theorem relItems_shape (rest : List Json) : ∀ (item : Json) (i : Nat) (s : Str),
    s ∈ relItems item rest i → ∃ t, s = '[' :: t := by
  induction rest with
  | nil =>
    intro item i s h
    rw [show relItems item [] i
          = (relKeysJ item).map (fun s => ARRAY_PREFIX ++ (natToStr i ++ (ARRAY_SUFFIX ++ s))) by
        simp [relItems]] at h
    obtain ⟨s0, _, rfl⟩ := List.mem_map.mp h
    exact ⟨natToStr i ++ (ARRAY_SUFFIX ++ s0), rfl⟩
  | cons y rest2 ih =>
    intro item i s h
    rw [show relItems item (y :: rest2) i
          = (relKeysJ item).map (fun s => ARRAY_PREFIX ++ (natToStr i ++ (ARRAY_SUFFIX ++ s))) ++
              relItems y rest2 (i + 1) by simp [relItems]] at h
    rcases List.mem_append.mp h with h1 | h2
    · obtain ⟨s0, _, rfl⟩ := List.mem_map.mp h1
      exact ⟨natToStr i ++ (ARRAY_SUFFIX ++ s0), rfl⟩
    · exact ih y (i + 1) s h2

theorem relKeysJ_shape (v : Json) (s : Str) (h : s ∈ relKeysJ v) : Shaped s := by
  cases v with
  | obj kvs =>
    rw [show relKeysJ (Json.obj kvs) = relKeysD kvs by simp [relKeysJ]] at h
    exact Or.inr (Or.inl (relKeysD_shape kvs s h))
  | arr xs =>
    cases xs with
    | nil =>
      rw [show relKeysJ (Json.arr []) = [[]] by simp [relKeysJ]] at h
      simp only [List.mem_singleton] at h
      exact Or.inl h
    | cons x rest =>
      rw [show relKeysJ (Json.arr (x :: rest)) = relItems x rest 0 by simp [relKeysJ]] at h
      exact Or.inr (Or.inr (relItems_shape rest x 0 s h))
  | null =>
    rw [show relKeysJ Json.null = [[]] by simp [relKeysJ]] at h
    simp only [List.mem_singleton] at h
    exact Or.inl h
  | bool b =>
    rw [show relKeysJ (Json.bool b) = [[]] by simp [relKeysJ]] at h
    simp only [List.mem_singleton] at h
    exact Or.inl h
  | num n =>
    rw [show relKeysJ (Json.num n) = [[]] by simp [relKeysJ]] at h
    simp only [List.mem_singleton] at h
    exact Or.inl h
  | str s2 =>
    rw [show relKeysJ (Json.str s2) = [[]] by simp [relKeysJ]] at h
    simp only [List.mem_singleton] at h
    exact Or.inl h

theorem relKeysD_mem (kvs : List (Str × Json)) (s : Str) (h : s ∈ relKeysD kvs) :
    ∃ k v s2, (k, v) ∈ kvs ∧ s2 ∈ relKeysJ v ∧ s = DICT_SEPARATOR ++ (k ++ s2) := by
  induction kvs with
  | nil => simp [relKeysD] at h
  | cons kv rest ih =>
    obtain ⟨k, v⟩ := kv
    rw [show relKeysD ((k, v) :: rest)
          = (relKeysJ v).map (fun s => DICT_SEPARATOR ++ (k ++ s)) ++ relKeysD rest by
        simp [relKeysD]] at h
    rcases List.mem_append.mp h with h1 | h2
    · obtain ⟨s0, hs0, rfl⟩ := List.mem_map.mp h1
      exact ⟨k, v, s0, by simp, hs0, rfl⟩
    · obtain ⟨k2, v2, s2, hm, hs2, rfl⟩ := ih h2
      exact ⟨k2, v2, s2, List.mem_cons_of_mem _ hm, hs2, rfl⟩

theorem relItems_mem (rest : List Json) : ∀ (item : Json) (i : Nat) (s : Str),
    s ∈ relItems item rest i →
    ∃ j s2, i ≤ j ∧ s = ARRAY_PREFIX ++ (natToStr j ++ (ARRAY_SUFFIX ++ s2)) := by
  induction rest with
  | nil =>
    intro item i s h
    rw [show relItems item [] i
          = (relKeysJ item).map (fun s => ARRAY_PREFIX ++ (natToStr i ++ (ARRAY_SUFFIX ++ s))) by
        simp [relItems]] at h
    obtain ⟨s0, _, rfl⟩ := List.mem_map.mp h
    exact ⟨i, s0, Nat.le_refl i, rfl⟩
  | cons y rest2 ih =>
    intro item i s h
    rw [show relItems item (y :: rest2) i
          = (relKeysJ item).map (fun s => ARRAY_PREFIX ++ (natToStr i ++ (ARRAY_SUFFIX ++ s))) ++
              relItems y rest2 (i + 1) by simp [relItems]] at h
    rcases List.mem_append.mp h with h1 | h2
    · obtain ⟨s0, _, rfl⟩ := List.mem_map.mp h1
      exact ⟨i, s0, Nat.le_refl i, rfl⟩
    · obtain ⟨j, s2, hj, rfl⟩ := ih y (i + 1) s h2
      exact ⟨j, s2, by omega, rfl⟩

/-! ## Clean keys -/

theorem cleanD_cons (k : Str) (v : Json) (rest : List (Str × Json))
    (h : cleanD ((k, v) :: rest) = true) :
    k ≠ [] ∧ '.' ∉ k ∧ '[' ∉ k ∧ (∀ kv ∈ rest, kv.1 ≠ k) ∧ cleanJ v = true ∧
      cleanD rest = true := by
  rw [show cleanD ((k, v) :: rest)
        = (!(k == []) && !(k.contains '.') && !(k.contains '[') &&
            !(rest.any (fun kv => kv.1 == k)) && cleanJ v && cleanD rest) by simp [cleanD]] at h
  simp only [Bool.and_eq_true, Bool.not_eq_true'] at h
  obtain ⟨⟨⟨⟨⟨h1, h2⟩, h3⟩, h4⟩, h5⟩, h6⟩ := h
  refine ⟨by simpa using h1, by simpa using h2, by simpa using h3, ?_, h5, h6⟩
  intro kv hkv
  rw [List.any_eq_false] at h4
  have := h4 kv hkv
  simpa using this

theorem cleanL_cons (x : Json) (rest : List Json) (h : cleanL (x :: rest) = true) :
    cleanJ x = true ∧ cleanL rest = true := by
  rw [show cleanL (x :: rest) = (cleanJ x && cleanL rest) by simp [cleanL]] at h
  simpa [Bool.and_eq_true] using h

theorem cleanD_mem (kvs : List (Str × Json)) (k : Str) (v : Json)
    (hm : (k, v) ∈ kvs) (h : cleanD kvs = true) :
    k ≠ [] ∧ '.' ∉ k ∧ '[' ∉ k ∧ cleanJ v = true := by
  induction kvs with
  | nil => simp at hm
  | cons kv rest ih =>
    obtain ⟨k0, v0⟩ := kv
    obtain ⟨h1, h2, h3, _, h5, h6⟩ := cleanD_cons k0 v0 rest h
    rcases List.mem_cons.mp hm with heq | hmem
    · obtain ⟨rfl, rfl⟩ := Prod.mk.injEq .. ▸ heq
      exact ⟨h1, h2, h3, h5⟩
    · exact ih hmem h6

/-! ## Entry keys are the parent followed by the relative suffixes -/

mutual

theorem entriesJ_keys_rel (v : Json) (p : Str) (hp : p ≠ []) :
    (entriesJ v p).map Prod.fst = (relKeysJ v).map (fun s => p ++ s) := by
  cases v with
  | obj kvs =>
    rw [show entriesJ (Json.obj kvs) p = entriesD kvs p by simp [entriesJ]]
    rw [show relKeysJ (Json.obj kvs) = relKeysD kvs by simp [relKeysJ]]
    exact entriesD_keys_rel kvs p hp
  | arr xs =>
    cases xs with
    | nil =>
      rw [show entriesJ (Json.arr []) p = [(p, Json.str EMPTY_ARRAY)] by simp [entriesJ]]
      rw [show relKeysJ (Json.arr []) = [[]] by simp [relKeysJ]]
      simp
    | cons x rest =>
      rw [show entriesJ (Json.arr (x :: rest)) p = entriesItems x rest p 0 by simp [entriesJ]]
      rw [show relKeysJ (Json.arr (x :: rest)) = relItems x rest 0 by simp [relKeysJ]]
      exact entriesItems_keys_rel x rest p 0
  | null =>
    rw [show entriesJ Json.null p = [(p, Json.null)] by simp [entriesJ]]
    rw [show relKeysJ Json.null = [[]] by simp [relKeysJ]]
    simp
  | bool b =>
    rw [show entriesJ (Json.bool b) p = [(p, Json.bool b)] by simp [entriesJ]]
    rw [show relKeysJ (Json.bool b) = [[]] by simp [relKeysJ]]
    simp
  | num n =>
    rw [show entriesJ (Json.num n) p = [(p, Json.num n)] by simp [entriesJ]]
    rw [show relKeysJ (Json.num n) = [[]] by simp [relKeysJ]]
    simp
  | str s =>
    rw [show entriesJ (Json.str s) p = [(p, Json.str s)] by simp [entriesJ]]
    rw [show relKeysJ (Json.str s) = [[]] by simp [relKeysJ]]
    simp
termination_by sizeOf v
decreasing_by all_goals (simp_wf; try omega)

theorem entriesD_keys_rel (kvs : List (Str × Json)) (p : Str) (hp : p ≠ []) :
    (entriesD kvs p).map Prod.fst = (relKeysD kvs).map (fun s => p ++ s) := by
  cases kvs with
  | nil => simp [entriesD, relKeysD]
  | cons kv rest =>
    obtain ⟨k, v⟩ := kv
    rw [show entriesD ((k, v) :: rest) p = entriesJ v (childKey p k) ++ entriesD rest p by
        simp [entriesD]]
    rw [show relKeysD ((k, v) :: rest)
          = (relKeysJ v).map (fun s => DICT_SEPARATOR ++ (k ++ s)) ++ relKeysD rest by
        simp [relKeysD]]
    rw [List.map_append, List.map_append, List.map_map]
    have hck : childKey p k ≠ [] := by
      unfold childKey
      rw [if_neg hp]
      simp [DICT_SEPARATOR]
    rw [entriesJ_keys_rel v (childKey p k) hck, entriesD_keys_rel rest p hp]
    congr 1
    apply List.map_congr_left
    intro s _
    simp [childKey, if_neg hp, DICT_SEPARATOR, List.append_assoc]
termination_by sizeOf kvs
decreasing_by all_goals (simp_wf; try omega)

theorem entriesItems_keys_rel (item : Json) (rest : List Json) (p : Str) (i : Nat) :
    (entriesItems item rest p i).map Prod.fst = (relItems item rest i).map (fun s => p ++ s) := by
  have hak : create_array_key p i ≠ [] := by
    unfold create_array_key
    simp [ARRAY_PREFIX]
  cases rest with
  | nil =>
    rw [show entriesItems item [] p i = entriesJ item (create_array_key p i) by
        simp [entriesItems]]
    rw [show relItems item [] i
          = (relKeysJ item).map (fun s => ARRAY_PREFIX ++ (natToStr i ++ (ARRAY_SUFFIX ++ s))) by
        simp [relItems]]
    rw [entriesJ_keys_rel item (create_array_key p i) hak, List.map_map]
    apply List.map_congr_left
    intro s _
    simp [create_array_key, List.append_assoc]
  | cons y rest2 =>
    rw [show entriesItems item (y :: rest2) p i
          = entriesJ item (create_array_key p i) ++ entriesItems y rest2 p (i + 1) by
        simp [entriesItems]]
    rw [show relItems item (y :: rest2) i
          = (relKeysJ item).map (fun s => ARRAY_PREFIX ++ (natToStr i ++ (ARRAY_SUFFIX ++ s))) ++
              relItems y rest2 (i + 1) by simp [relItems]]
    rw [List.map_append, List.map_append, List.map_map]
    rw [entriesJ_keys_rel item (create_array_key p i) hak]
    rw [entriesItems_keys_rel y rest2 p (i + 1)]
    congr 1
    apply List.map_congr_left
    intro s _
    simp [create_array_key, List.append_assoc]
termination_by sizeOf item + sizeOf rest
decreasing_by all_goals (simp_wf; try omega)

end

theorem entriesD_keys_root (kvs : List (Str × Json)) (h : cleanD kvs = true) :
    (entriesD kvs []).map Prod.fst = rootKeysD kvs := by
  induction kvs with
  | nil => simp [entriesD, rootKeysD]
  | cons kv rest ih =>
    obtain ⟨k, v⟩ := kv
    obtain ⟨hk, -, -, -, -, hrest⟩ := cleanD_cons k v rest h
    rw [show entriesD ((k, v) :: rest) [] = entriesJ v (childKey [] k) ++ entriesD rest [] by
        simp [entriesD]]
    rw [show childKey [] k = k by simp [childKey]]
    rw [List.map_append, entriesJ_keys_rel v k hk, ih hrest]
    rw [show rootKeysD ((k, v) :: rest)
          = (relKeysJ v).map (fun s => k ++ s) ++ rootKeysD rest by simp [rootKeysD]]

theorem entriesJ_keys_root (v : Json) (h : cleanJ v = true) :
    (entriesJ v []).map Prod.fst = rootKeys v := by
  cases v with
  | obj kvs =>
    rw [show entriesJ (Json.obj kvs) [] = entriesD kvs [] by simp [entriesJ]]
    rw [show rootKeys (Json.obj kvs) = rootKeysD kvs by simp [rootKeys]]
    exact entriesD_keys_root kvs (by
      rw [show cleanJ (Json.obj kvs) = cleanD kvs by simp [cleanJ]] at h
      exact h)
  | arr xs =>
    cases xs with
    | nil => simp [entriesJ, rootKeys]
    | cons x rest =>
      rw [show entriesJ (Json.arr (x :: rest)) [] = entriesItems x rest [] 0 by simp [entriesJ]]
      rw [show rootKeys (Json.arr (x :: rest)) = relItems x rest 0 by simp [rootKeys]]
      simpa using entriesItems_keys_rel x rest [] 0
  | null => simp [entriesJ, rootKeys]
  | bool b => simp [entriesJ, rootKeys]
  | num n => simp [entriesJ, rootKeys]
  | str s => simp [entriesJ, rootKeys]

/-! ## Distinctness of the synthesized keys under clean object keys -/

mutual

theorem relKeysJ_nodup (v : Json) (h : cleanJ v = true) : (relKeysJ v).Nodup := by
  cases v with
  | obj kvs =>
    rw [show relKeysJ (Json.obj kvs) = relKeysD kvs by simp [relKeysJ]]
    refine relKeysD_nodup kvs ?_
    rw [show cleanJ (Json.obj kvs) = cleanD kvs by simp [cleanJ]] at h
    exact h
  | arr xs =>
    cases xs with
    | nil =>
      rw [show relKeysJ (Json.arr []) = [[]] by simp [relKeysJ]]
      simp
    | cons x rest =>
      rw [show relKeysJ (Json.arr (x :: rest)) = relItems x rest 0 by simp [relKeysJ]]
      rw [show cleanJ (Json.arr (x :: rest)) = cleanL (x :: rest) by simp [cleanJ]] at h
      obtain ⟨hx, hrest⟩ := cleanL_cons x rest h
      exact relItems_nodup x rest 0 hx hrest
  | null =>
    rw [show relKeysJ Json.null = [[]] by simp [relKeysJ]]
    simp
  | bool b =>
    rw [show relKeysJ (Json.bool b) = [[]] by simp [relKeysJ]]
    simp
  | num n =>
    rw [show relKeysJ (Json.num n) = [[]] by simp [relKeysJ]]
    simp
  | str s =>
    rw [show relKeysJ (Json.str s) = [[]] by simp [relKeysJ]]
    simp
termination_by sizeOf v
decreasing_by all_goals (subst_vars; simp_wf; try omega)

theorem relKeysD_nodup : ∀ (kvs : List (Str × Json)), cleanD kvs = true →
    (relKeysD kvs).Nodup
  | [], _ => by
    rw [show relKeysD [] = [] by simp [relKeysD]]
    simp
  | (k, v) :: rest, h => by
    obtain ⟨hk, hdot, hbr, hnot, hv, hrest⟩ := cleanD_cons k v rest h
    rw [show relKeysD ((k, v) :: rest)
          = (relKeysJ v).map (fun s => DICT_SEPARATOR ++ (k ++ s)) ++ relKeysD rest by
        simp [relKeysD]]
    rw [List.nodup_append]
    refine ⟨?_, relKeysD_nodup rest hrest, ?_⟩
    · refine List.Nodup.map ?_ (relKeysJ_nodup v hv)
      intro a b hab
      simp only [DICT_SEPARATOR] at hab
      exact List.append_cancel_left (List.append_cancel_left hab)
    · intro x hx1 hx2
      obtain ⟨s1, hs1, rfl⟩ := List.mem_map.mp hx1
      obtain ⟨k2, v2, s2, hm2, hs2, heq⟩ := relKeysD_mem rest _ hx2
      simp only [DICT_SEPARATOR, List.cons_append, List.nil_append, List.cons.injEq,
        true_and] at heq
      obtain ⟨-, -, -, hv2⟩ := cleanD_mem rest k2 v2 hm2 hrest
      obtain ⟨hk2ne, hk2dot, hk2br, -⟩ := cleanD_mem rest k2 v2 hm2 hrest
      have hsh1 := relKeysJ_shape v s1 hs1
      have hsh2 := relKeysJ_shape v2 s2 hs2
      have := sep_decode k hdot hbr k2 hk2dot hk2br s1 s2 hsh1 hsh2 heq
      exact (hnot (k2, v2) hm2) this.1.symm
termination_by kvs _ => sizeOf kvs
decreasing_by all_goals (subst_vars; simp_wf; try omega)

theorem relItems_nodup (item : Json) (rest : List Json) (i : Nat)
    (h1 : cleanJ item = true) (h2 : cleanL rest = true) : (relItems item rest i).Nodup := by
  cases rest with
  | nil =>
    rw [show relItems item [] i
          = (relKeysJ item).map (fun s => ARRAY_PREFIX ++ (natToStr i ++ (ARRAY_SUFFIX ++ s))) by
        simp [relItems]]
    refine List.Nodup.map ?_ (relKeysJ_nodup item h1)
    intro a b hab
    simp only [ARRAY_PREFIX, ARRAY_SUFFIX] at hab
    exact List.append_cancel_left
      (List.append_cancel_left (List.append_cancel_left hab))
  | cons y rest2 =>
    rw [show relItems item (y :: rest2) i
          = (relKeysJ item).map (fun s => ARRAY_PREFIX ++ (natToStr i ++ (ARRAY_SUFFIX ++ s))) ++
              relItems y rest2 (i + 1) by simp [relItems]]
    rw [List.nodup_append]
    obtain ⟨hy, hrest2⟩ := cleanL_cons y rest2 h2
    refine ⟨?_, relItems_nodup y rest2 (i + 1) hy hrest2, ?_⟩
    · refine List.Nodup.map ?_ (relKeysJ_nodup item h1)
      intro a b hab
      simp only [ARRAY_PREFIX, ARRAY_SUFFIX] at hab
      exact List.append_cancel_left
        (List.append_cancel_left (List.append_cancel_left hab))
    · intro x hx1 hx2
      obtain ⟨s1, hs1, rfl⟩ := List.mem_map.mp hx1
      obtain ⟨j, s2, hj, heq⟩ := relItems_mem rest2 y (i + 1) _ hx2
      simp only [ARRAY_PREFIX, ARRAY_SUFFIX, List.cons_append, List.nil_append,
        List.cons.injEq, true_and] at heq
      have hbd := br_decode (natToStr i) (natToStr_no_rbracket i) (natToStr j)
        (natToStr_no_rbracket j) s1 s2 heq
      have : i = j := natToStr_inj i j hbd.1
      omega
termination_by sizeOf item + sizeOf rest
decreasing_by all_goals (subst_vars; simp_wf; try omega)

end

theorem rootKeysD_mem (kvs : List (Str × Json)) (s : Str) (h : s ∈ rootKeysD kvs) :
    ∃ k v s2, (k, v) ∈ kvs ∧ s2 ∈ relKeysJ v ∧ s = k ++ s2 := by
  induction kvs with
  | nil => simp [rootKeysD] at h
  | cons kv rest ih =>
    obtain ⟨k, v⟩ := kv
    rw [show rootKeysD ((k, v) :: rest)
          = (relKeysJ v).map (fun s => k ++ s) ++ rootKeysD rest by simp [rootKeysD]] at h
    rcases List.mem_append.mp h with h1 | h2
    · obtain ⟨s0, hs0, rfl⟩ := List.mem_map.mp h1
      exact ⟨k, v, s0, by simp, hs0, rfl⟩
    · obtain ⟨k2, v2, s2, hm, hs2, rfl⟩ := ih h2
      exact ⟨k2, v2, s2, List.mem_cons_of_mem _ hm, hs2, rfl⟩

theorem rootKeysD_nodup (kvs : List (Str × Json)) (h : cleanD kvs = true) :
    (rootKeysD kvs).Nodup := by
  induction kvs with
  | nil => simp [rootKeysD]
  | cons kv rest ih =>
    obtain ⟨k, v⟩ := kv
    obtain ⟨hk, hdot, hbr, hnot, hv, hrest⟩ := cleanD_cons k v rest h
    rw [show rootKeysD ((k, v) :: rest)
          = (relKeysJ v).map (fun s => k ++ s) ++ rootKeysD rest by simp [rootKeysD]]
    rw [List.nodup_append]
    refine ⟨?_, ih hrest, ?_⟩
    · refine List.Nodup.map ?_ (relKeysJ_nodup v hv)
      intro a b hab
      exact List.append_cancel_left hab
    · intro x hx1 hx2
      obtain ⟨s1, hs1, rfl⟩ := List.mem_map.mp hx1
      obtain ⟨k2, v2, s2, hm2, hs2, heq⟩ := rootKeysD_mem rest _ hx2
      obtain ⟨hk2ne, hk2dot, hk2br, -⟩ := cleanD_mem rest k2 v2 hm2 hrest
      have hsh1 := relKeysJ_shape v s1 hs1
      have hsh2 := relKeysJ_shape v2 s2 hs2
      have := sep_decode k hdot hbr k2 hk2dot hk2br s1 s2 hsh1 hsh2 heq
      exact (hnot (k2, v2) hm2) this.1.symm

theorem rootKeys_nodup (v : Json) (h : cleanJ v = true) : (rootKeys v).Nodup := by
  cases v with
  | obj kvs =>
    rw [show rootKeys (Json.obj kvs) = rootKeysD kvs by simp [rootKeys]]
    refine rootKeysD_nodup kvs ?_
    rw [show cleanJ (Json.obj kvs) = cleanD kvs by simp [cleanJ]] at h
    exact h
  | arr xs =>
    cases xs with
    | nil => simp [rootKeys]
    | cons x rest =>
      rw [show rootKeys (Json.arr (x :: rest)) = relItems x rest 0 by simp [rootKeys]]
      rw [show cleanJ (Json.arr (x :: rest)) = cleanL (x :: rest) by simp [cleanJ]] at h
      obtain ⟨hx, hrest⟩ := cleanL_cons x rest h
      exact relItems_nodup x rest 0 hx hrest
  | null => simp [rootKeys]
  | bool b => simp [rootKeys]
  | num n => simp [rootKeys]
  | str s => simp [rootKeys]

/-- Under clean keys, the keys flattening synthesizes at the root are pairwise
    distinct. -/
theorem entriesJ_keys_nodup (v : Json) (h : cleanJ v = true) :
    ((entriesJ v DEFAULT_VALUE).map Prod.fst).Nodup := by
  rw [show DEFAULT_VALUE = ([] : Str) from rfl]
  rw [entriesJ_keys_root v h]
  exact rootKeys_nodup v h

/-! ## When flattening produces entries -/

theorem insertAll_nil_eq_nil_iff (es : List (Str × Json)) :
    insertAll [] es = [] ↔ es = [] := by
  cases es with
  | nil => simp [insertAll_nil]
  | cons e rest =>
    constructor
    · intro h; exact absurd h (insertAll_nil_ne e rest)
    · intro h; simp at h

mutual

theorem entriesJ_nil_iff (v : Json) (p : Str) :
    entriesJ v p = [] ↔ producesEntry v = false := by
  cases v with
  | obj kvs =>
    rw [show entriesJ (Json.obj kvs) p = entriesD kvs p by simp [entriesJ]]
    rw [show producesEntry (Json.obj kvs) = producesEntryD kvs by simp [producesEntry]]
    exact entriesD_nil_iff kvs p
  | arr xs =>
    cases xs with
    | nil =>
      rw [show entriesJ (Json.arr []) p = [(p, Json.str EMPTY_ARRAY)] by simp [entriesJ]]
      rw [show producesEntry (Json.arr []) = true by simp [producesEntry]]
      simp
    | cons x rest =>
      rw [show entriesJ (Json.arr (x :: rest)) p = entriesItems x rest p 0 by simp [entriesJ]]
      rw [show producesEntry (Json.arr (x :: rest)) = producesEntryL (x :: rest) by
        simp [producesEntry]]
      rw [show producesEntryL (x :: rest) = (producesEntry x || producesEntryL rest) by
        simp [producesEntryL]]
      exact entriesItems_nil_iff x rest p 0
  | null => simp [entriesJ, producesEntry]
  | bool b => simp [entriesJ, producesEntry]
  | num n => simp [entriesJ, producesEntry]
  | str s => simp [entriesJ, producesEntry]
termination_by sizeOf v
decreasing_by all_goals (subst_vars; simp_wf; try omega)

theorem entriesD_nil_iff (kvs : List (Str × Json)) (p : Str) :
    entriesD kvs p = [] ↔ producesEntryD kvs = false := by
  cases kvs with
  | nil => simp [entriesD, producesEntryD]
  | cons kv rest =>
    obtain ⟨k, v⟩ := kv
    rw [show entriesD ((k, v) :: rest) p = entriesJ v (childKey p k) ++ entriesD rest p by
        simp [entriesD]]
    rw [show producesEntryD ((k, v) :: rest) = (producesEntry v || producesEntryD rest) by
        simp [producesEntryD]]
    rw [List.append_eq_nil, Bool.or_eq_false_iff]
    rw [entriesJ_nil_iff v (childKey p k), entriesD_nil_iff rest p]
termination_by sizeOf kvs
decreasing_by all_goals (subst_vars; simp_wf; try omega)

theorem entriesItems_nil_iff (item : Json) (rest : List Json) (p : Str) (i : Nat) :
    entriesItems item rest p i = [] ↔ (producesEntry item || producesEntryL rest) = false := by
  cases rest with
  | nil =>
    rw [show entriesItems item [] p i = entriesJ item (create_array_key p i) by
        simp [entriesItems]]
    rw [show producesEntryL ([] : List Json) = false by simp [producesEntryL]]
    rw [Bool.or_false]
    exact entriesJ_nil_iff item (create_array_key p i)
  | cons y rest2 =>
    rw [show entriesItems item (y :: rest2) p i
          = entriesJ item (create_array_key p i) ++ entriesItems y rest2 p (i + 1) by
        simp [entriesItems]]
    rw [show producesEntryL (y :: rest2) = (producesEntry y || producesEntryL rest2) by
        simp [producesEntryL]]
    rw [List.append_eq_nil, Bool.or_eq_false_iff, Bool.or_eq_false_iff]
    rw [entriesJ_nil_iff item (create_array_key p i), entriesItems_nil_iff y rest2 p (i + 1)]
    rw [Bool.or_eq_false_iff]
termination_by sizeOf item + sizeOf rest
decreasing_by all_goals (subst_vars; simp_wf; try omega)

end

/-! ## Flattened values are leaves -/

mutual

theorem entriesJ_values_prim (v : Json) (p : Str) :
    ∀ kv ∈ entriesJ v p, isPrim kv.2 = true := by
  cases v with
  | obj kvs =>
    rw [show entriesJ (Json.obj kvs) p = entriesD kvs p by simp [entriesJ]]
    exact entriesD_values_prim kvs p
  | arr xs =>
    cases xs with
    | nil =>
      rw [show entriesJ (Json.arr []) p = [(p, Json.str EMPTY_ARRAY)] by simp [entriesJ]]
      intro kv hkv
      simp only [List.mem_singleton] at hkv
      subst hkv
      simp [isPrim]
    | cons x rest =>
      rw [show entriesJ (Json.arr (x :: rest)) p = entriesItems x rest p 0 by simp [entriesJ]]
      exact entriesItems_values_prim x rest p 0
  | null =>
    intro kv hkv
    rw [show entriesJ Json.null p = [(p, Json.null)] by simp [entriesJ]] at hkv
    simp only [List.mem_singleton] at hkv
    subst hkv
    simp [isPrim]
  | bool b =>
    intro kv hkv
    rw [show entriesJ (Json.bool b) p = [(p, Json.bool b)] by simp [entriesJ]] at hkv
    simp only [List.mem_singleton] at hkv
    subst hkv
    simp [isPrim]
  | num n =>
    intro kv hkv
    rw [show entriesJ (Json.num n) p = [(p, Json.num n)] by simp [entriesJ]] at hkv
    simp only [List.mem_singleton] at hkv
    subst hkv
    simp [isPrim]
  | str s =>
    intro kv hkv
    rw [show entriesJ (Json.str s) p = [(p, Json.str s)] by simp [entriesJ]] at hkv
    simp only [List.mem_singleton] at hkv
    subst hkv
    simp [isPrim]
termination_by sizeOf v
decreasing_by all_goals (subst_vars; simp_wf; try omega)

theorem entriesD_values_prim (kvs : List (Str × Json)) (p : Str) :
    ∀ kv ∈ entriesD kvs p, isPrim kv.2 = true := by
  cases kvs with
  | nil => simp [entriesD]
  | cons kv0 rest =>
    obtain ⟨k, v⟩ := kv0
    intro kv hkv
    rw [show entriesD ((k, v) :: rest) p = entriesJ v (childKey p k) ++ entriesD rest p by
        simp [entriesD]] at hkv
    rcases List.mem_append.mp hkv with h1 | h2
    · exact entriesJ_values_prim v (childKey p k) kv h1
    · exact entriesD_values_prim rest p kv h2
termination_by sizeOf kvs
decreasing_by all_goals (subst_vars; simp_wf; try omega)

theorem entriesItems_values_prim (item : Json) (rest : List Json) (p : Str) (i : Nat) :
    ∀ kv ∈ entriesItems item rest p i, isPrim kv.2 = true := by
  cases rest with
  | nil =>
    rw [show entriesItems item [] p i = entriesJ item (create_array_key p i) by
        simp [entriesItems]]
    exact entriesJ_values_prim item (create_array_key p i)
  | cons y rest2 =>
    intro kv hkv
    rw [show entriesItems item (y :: rest2) p i
          = entriesJ item (create_array_key p i) ++ entriesItems y rest2 p (i + 1) by
        simp [entriesItems]] at hkv
    rcases List.mem_append.mp hkv with h1 | h2
    · exact entriesJ_values_prim item (create_array_key p i) kv h1
    · exact entriesItems_values_prim y rest2 p (i + 1) kv h2
termination_by sizeOf item + sizeOf rest
decreasing_by all_goals (subst_vars; simp_wf; try omega)

end

/-- Flattening only stores leaves. -/
theorem flatten_json_values_prim (v : Json) (p : Str) :
    ∀ kv ∈ flatten_json v p, isPrim kv.2 = true := by
  intro kv hkv
  rw [flatten_json_entries v p] at hkv
  rcases insertAll_mem [] _ kv hkv with h1 | h2
  · simp at h1
  · exact entriesJ_values_prim v p kv h2

/-- The keys of any flattening result are pairwise distinct, because the
    Python dict overwrites on collision. -/
theorem flatten_json_keys_nodup (v : Json) (p : Str) :
    ((flatten_json v p).map Prod.fst).Nodup := by
  rw [flatten_json_entries v p]
  exact insertAll_keys_nodup [] _ (by simp)

/-- An object whose values are leaves contributes exactly its own pairs at the
    root. -/
theorem entriesD_prim_root (kvs : List (Str × Json))
    (h : ∀ kv ∈ kvs, isPrim kv.2 = true) : entriesD kvs [] = kvs := by
  induction kvs with
  | nil => simp [entriesD]
  | cons kv0 rest ih =>
    obtain ⟨k, v⟩ := kv0
    rw [show entriesD ((k, v) :: rest) [] = entriesJ v (childKey [] k) ++ entriesD rest [] by
        simp [entriesD]]
    rw [show childKey [] k = k by simp [childKey]]
    have hv : isPrim v = true := h (k, v) (by simp)
    have hrest : ∀ kv ∈ rest, isPrim kv.2 = true := fun kv hkv => h kv (by simp [hkv])
    rw [ih hrest]
    cases v with
    | null => rw [show entriesJ Json.null k = [(k, Json.null)] by simp [entriesJ]]; rfl
    | bool b => rw [show entriesJ (Json.bool b) k = [(k, Json.bool b)] by simp [entriesJ]]; rfl
    | num n => rw [show entriesJ (Json.num n) k = [(k, Json.num n)] by simp [entriesJ]]; rfl
    | str s => rw [show entriesJ (Json.str s) k = [(k, Json.str s)] by simp [entriesJ]]; rfl
    | arr xs => simp [isPrim] at hv
    | obj kvs2 => simp [isPrim] at hv

/-! ## Locating markers -/

theorem occursAt_true_of (content pat : Str) (i : Nat)
    (hlen : i + pat.length ≤ content.length)
    (htake : (content.drop i).take pat.length = pat) : occursAt content pat i = true := by
  simp [occursAt, hlen, htake]

theorem occursAt_false_of_len (content pat : Str) (i : Nat)
    (h : content.length < i + pat.length) : occursAt content pat i = false := by
  simp only [occursAt, Bool.and_eq_false_iff, decide_eq_false_iff_not]
  left
  omega

theorem pyFind_at_start (content pat : Str) (s : Nat)
    (h : occursAt content pat s = true) : pyFind content pat s = some s := by
  have hs : s ≤ content.length := by
    have := occursAt_le content pat s h
    omega
  unfold pyFind
  have hfuel : content.length + 1 - s = (content.length - s) + 1 := by omega
  rw [hfuel]
  unfold pyFindAux
  rw [if_pos h]

theorem pyFindAux_none_of (content pat : Str) :
    ∀ (fuel i : Nat), (∀ j, i ≤ j → occursAt content pat j = false) →
      pyFindAux content pat i fuel = none := by
  intro fuel
  induction fuel with
  | zero => intro i _; rfl
  | succ fuel ih =>
    intro i h
    unfold pyFindAux
    rw [if_neg (by rw [h i (Nat.le_refl i)]; simp)]
    exact ih (i + 1) (fun j hj => h j (by omega))

theorem pyFind_none_of (content pat : Str) (s : Nat)
    (h : ∀ j, s ≤ j → occursAt content pat j = false) : pyFind content pat s = none :=
  pyFindAux_none_of content pat _ s h

theorem occursAt_shift (pre t pat : Str) (j : Nat) :
    occursAt (pre ++ t) pat (pre.length + j) = occursAt t pat j := by
  unfold occursAt
  rw [List.drop_append]
  rw [List.length_append]
  by_cases hl : j + pat.length ≤ t.length
  · rw [decide_eq_true (by omega : pre.length + j + pat.length ≤ pre.length + t.length)]
    rw [decide_eq_true hl]
  · rw [decide_eq_false (by omega : ¬pre.length + j + pat.length ≤ pre.length + t.length)]
    rw [decide_eq_false hl]

theorem pyFindAux_shift (pre t pat : Str) :
    ∀ (fuel d : Nat), pyFindAux (pre ++ t) pat (pre.length + d) fuel
      = (pyFindAux t pat d fuel).map (fun j => pre.length + j) := by
  intro fuel
  induction fuel with
  | zero => intro d; rfl
  | succ fuel ih =>
    intro d
    unfold pyFindAux
    rw [occursAt_shift pre t pat d]
    by_cases ho : occursAt t pat d = true
    · rw [if_pos ho, if_pos ho]
      rfl
    · rw [if_neg ho, if_neg ho]
      rw [show pre.length + d + 1 = pre.length + (d + 1) by omega]
      exact ih (d + 1)

theorem pyFind_shift (pre t pat : Str) (d : Nat) :
    pyFind (pre ++ t) pat (pre.length + d)
      = (pyFind t pat d).map (fun j => pre.length + j) := by
  unfold pyFind
  rw [List.length_append]
  rw [show pre.length + t.length + 1 - (pre.length + d) = t.length + 1 - d by omega]
  exact pyFindAux_shift pre t pat _ d

theorem occursAt_of_startsWith (pre w rest sp : Str) (h : sp <+: w) :
    occursAt (pre ++ (w ++ rest)) sp pre.length = true := by
  obtain ⟨w2, rfl⟩ := h
  apply occursAt_true_of
  · simp only [List.length_append]
    omega
  · rw [show pre ++ (sp ++ w2 ++ rest) = pre ++ (sp ++ (w2 ++ rest)) by simp]
    rw [List.drop_left pre (sp ++ (w2 ++ rest))]
    exact List.take_left sp (w2 ++ rest)

/-- What one successful locate-and-slice step computes: both marker scans, the
    sliced substring (exactly the record) and the advanced position. -/
theorem process_json_item_config (parse : ParseFn) (sp pre w rest : Str)
    (h1 : sp <+: w) (h2 : JSON_END_PATTERN.length ≤ w.length)
    (h3 : pyFind (w ++ rest) JSON_END_PATTERN 0 = some (w.length - JSON_END_PATTERN.length)) :
    process_json_item parse (pre ++ (w ++ rest)) pre.length sp =
      ((parse_json_string parse w pre.length
          (pre.length + (w.length - JSON_END_PATTERN.length))).1,
       (parse_json_string parse w pre.length
          (pre.length + (w.length - JSON_END_PATTERN.length))).2,
       false, some (pre.length + w.length)) := by
  have hs : pyFind (pre ++ (w ++ rest)) sp pre.length = some pre.length :=
    pyFind_at_start _ _ _ (occursAt_of_startsWith pre w rest sp h1)
  have he : pyFind (pre ++ (w ++ rest)) JSON_END_PATTERN pre.length
      = some (pre.length + (w.length - JSON_END_PATTERN.length)) := by
    have h4 := pyFind_shift pre (w ++ rest) JSON_END_PATTERN 0
    simp only [Nat.add_zero] at h4
    rw [h4, h3]
    rfl
  have hfjp : find_json_positions (pre ++ (w ++ rest)) sp pre.length
      = some (pre.length, pre.length + (w.length - JSON_END_PATTERN.length)) := by
    simp only [find_json_positions, hs, he]
  have hjs : extract_json_string (pre ++ (w ++ rest)) pre.length
      (pre.length + (w.length - JSON_END_PATTERN.length)) = (w, pre.length + w.length) := by
    have hlen : pre.length + (w.length - JSON_END_PATTERN.length) + JSON_END_PATTERN.length
        = pre.length + w.length := by omega
    simp only [extract_json_string, hlen]
    rw [List.drop_left pre (w ++ rest)]
    rw [show pre.length + w.length - pre.length = w.length by omega]
    rw [List.take_left w rest]
  simp only [process_json_item, hfjp, hjs]

/-! ## One iteration of the extraction loop -/

theorem process_json_item_noStart (parse : ParseFn) (content sp : Str) (pos : Nat)
    (h : pyFind content sp pos = none) :
    process_json_item parse content pos sp = (none, none, true, none) := by
  unfold process_json_item find_json_positions
  rw [h]

theorem process_json_item_noEnd (parse : ParseFn) (content sp : Str) (pos s : Nat)
    (h1 : pyFind content sp pos = some s)
    (h2 : pyFind content JSON_END_PATTERN s = none) :
    process_json_item parse content pos sp = (none, none, true, none) := by
  unfold process_json_item find_json_positions
  rw [h1]
  simp only [h2]

theorem extract_loop_eq_stop (parse : ParseFn) (content sp : Str) (pos : Nat)
    (objs : List Json) (diags : List Diag)
    (hp : process_json_item parse content pos sp = (none, none, true, none)) :
    extract_loop parse content sp pos objs diags = (objs, diags) := by
  rw [extract_loop]
  split
  · rfl
  · rename_i o er newPos heq
    rw [hp] at heq
    simp at heq
  · rfl

theorem extract_loop_eq_step_ok (parse : ParseFn) (content sp : Str) (pos : Nat)
    (objs : List Json) (diags : List Diag) (v : Json) (er : Option Diag) (np : Nat)
    (hp : process_json_item parse content pos sp = (some v, er, false, some np))
    (ht : pyTruthy v = true) :
    extract_loop parse content sp pos objs diags
      = extract_loop parse content sp np (objs ++ [v]) diags := by
  rw [extract_loop]
  split
  · rename_i heq
    rw [hp] at heq
    simp at heq
  · rename_i o2 er2 np2 heq
    rw [hp] at heq
    simp only [Prod.mk.injEq, Option.some.injEq] at heq
    obtain ⟨h1, h2, -, h4⟩ := heq
    subst h1
    subst h4
    rw [if_pos (by simpa [pyTruthyOpt] using ht)]
    rfl
  · rename_i heq
    rw [hp] at heq
    simp at heq

theorem extract_loop_eq_step_err (parse : ParseFn) (content sp : Str) (pos : Nat)
    (objs : List Json) (diags : List Diag) (d : Diag) (np : Nat)
    (hp : process_json_item parse content pos sp = (none, some d, false, some np)) :
    extract_loop parse content sp pos objs diags
      = extract_loop parse content sp np objs (diags ++ [d]) := by
  rw [extract_loop]
  split
  · rename_i heq
    rw [hp] at heq
    simp at heq
  · rename_i o2 er2 np2 heq
    rw [hp] at heq
    simp only [Prod.mk.injEq, Option.some.injEq] at heq
    obtain ⟨h1, h2, -, h4⟩ := heq
    subst h1
    subst h2
    subst h4
    rw [if_neg (by simp [pyTruthyOpt])]
    rfl
  · rename_i heq
    rw [hp] at heq
    simp at heq

/-- Once the cursor has reached the end of the content, the loop stops with
    its accumulators: either the start marker is no longer found, or (when the
    start pattern is empty) the end pattern is not. -/
theorem extract_loop_at_end (parse : ParseFn) (content sp : Str) (pos : Nat)
    (objs : List Json) (diags : List Diag) (h : content.length ≤ pos) :
    extract_loop parse content sp pos objs diags = (objs, diags) := by
  by_cases hsp : sp = []
  · subst hsp
    by_cases hpos : pos ≤ content.length
    · have hocc : occursAt content [] pos = true := by
        apply occursAt_true_of
        · simpa using hpos
        · simp
      have hs := pyFind_at_start content [] pos hocc
      have hend : pyFind content JSON_END_PATTERN pos = none := by
        apply pyFind_none_of
        intro j hj
        apply occursAt_false_of_len
        have : (0 : Nat) < JSON_END_PATTERN.length := by simp [JSON_END_PATTERN]
        omega
      exact extract_loop_eq_stop parse content [] pos objs diags
        (process_json_item_noEnd parse content [] pos pos hs hend)
    · have hnone : pyFind content [] pos = none := by
        apply pyFind_none_of
        intro j hj
        apply occursAt_false_of_len
        simp only [List.length_nil]
        omega
      exact extract_loop_eq_stop parse content [] pos objs diags
        (process_json_item_noStart parse content [] pos hnone)
  · have hnone : pyFind content sp pos = none := by
      apply pyFind_none_of
      intro j hj
      apply occursAt_false_of_len
      have : 0 < sp.length := List.length_pos.mpr hsp
      omega
    exact extract_loop_eq_stop parse content sp pos objs diags
      (process_json_item_noStart parse content sp pos hnone)


theorem chainText_nil : chainText [] = [] := rfl

theorem chainText_cons (w : Str) (v : Json) (rs : List (Str × Json)) :
    chainText ((w, v) :: rs) = w ++ chainText rs := rfl

theorem extract_loop_step_ok (parse : ParseFn) (sp pre w rest : Str) (v : Json)
    (objs : List Json) (diags : List Diag) (h : WFRecord parse sp w rest v) :
    extract_loop parse (pre ++ (w ++ rest)) sp pre.length objs diags
      = extract_loop parse (pre ++ (w ++ rest)) sp (pre.length + w.length)
          (objs ++ [v]) diags := by
  obtain ⟨h1, h2, h3, h4, h5⟩ := h
  have hp := process_json_item_config parse sp pre w rest h1 h2 h3
  rw [show parse_json_string parse w pre.length
        (pre.length + (w.length - JSON_END_PATTERN.length)) = (some v, none) by
      unfold parse_json_string
      rw [h4]] at hp
  exact extract_loop_eq_step_ok parse _ sp pre.length objs diags v none
    (pre.length + w.length) hp h5

theorem extract_loop_step_err (parse : ParseFn) (sp pre m rest err : Str)
    (objs : List Json) (diags : List Diag) (h : MalformedRecord parse sp m rest err) :
    extract_loop parse (pre ++ (m ++ rest)) sp pre.length objs diags
      = extract_loop parse (pre ++ (m ++ rest)) sp (pre.length + m.length) objs
          (diags ++ [(errorParseMsg pre.length
              (pre.length + (m.length - JSON_END_PATTERN.length)) err,
            create_error_snippet m)]) := by
  obtain ⟨h1, h2, h3, h4⟩ := h
  have hp := process_json_item_config parse sp pre m rest h1 h2 h3
  rw [show parse_json_string parse m pre.length
        (pre.length + (m.length - JSON_END_PATTERN.length))
      = (none, some (errorParseMsg pre.length
          (pre.length + (m.length - JSON_END_PATTERN.length)) err,
        create_error_snippet m)) by
      unfold parse_json_string
      rw [h4]] at hp
  exact extract_loop_eq_step_err parse _ sp pre.length objs diags _
    (pre.length + m.length) hp

/-- Processing a chain of well-formed records appends their values in corpus
    order and advances the cursor past the chain. -/
theorem extract_chain (parse : ParseFn) (sp : Str) :
    ∀ (rs : List (Str × Json)) (pre tail : Str) (objs : List Json) (diags : List Diag),
    WFChain parse sp rs tail →
    extract_loop parse (pre ++ (chainText rs ++ tail)) sp pre.length objs diags
      = extract_loop parse (pre ++ (chainText rs ++ tail)) sp
          (pre.length + (chainText rs).length) (objs ++ rs.map Prod.snd) diags := by
  intro rs
  induction rs with
  | nil =>
    intro pre tail objs diags _
    simp [chainText_nil]
  | cons wv rest ih =>
    obtain ⟨w, v⟩ := wv
    intro pre tail objs diags hchain
    obtain ⟨hrec, hrest⟩ := hchain
    have hassoc : pre ++ (chainText ((w, v) :: rest) ++ tail)
        = pre ++ (w ++ (chainText rest ++ tail)) := by
      rw [chainText_cons]
      simp [List.append_assoc]
    rw [hassoc]
    rw [extract_loop_step_ok parse sp pre w (chainText rest ++ tail) v objs diags hrec]
    have hassoc2 : pre ++ (w ++ (chainText rest ++ tail))
        = (pre ++ w) ++ (chainText rest ++ tail) := by
      simp [List.append_assoc]
    rw [hassoc2]
    rw [show pre.length + w.length = (pre ++ w).length by simp]
    rw [ih (pre ++ w) tail (objs ++ [v]) diags hrest]
    rw [chainText_cons]
    simp only [List.length_append, List.map_cons, List.append_assoc, List.singleton_append,
      Nat.add_assoc]

/-- Step lemma with the corpus decomposition given as an equation, convenient
    when the corpus is not written in the decomposed form. -/
theorem extract_loop_step_ok2 (parse : ParseFn) (sp content pre w rest : Str) (pos : Nat)
    (v : Json) (objs : List Json) (diags : List Diag)
    (hc : content = pre ++ (w ++ rest)) (hpos : pos = pre.length)
    (h : WFRecord parse sp w rest v) :
    extract_loop parse content sp pos objs diags
      = extract_loop parse content sp (pre.length + w.length) (objs ++ [v]) diags := by
  subst hc
  subst hpos
  exact extract_loop_step_ok parse sp pre w rest v objs diags h

theorem extract_loop_step_err2 (parse : ParseFn) (sp content pre m rest err : Str) (pos : Nat)
    (objs : List Json) (diags : List Diag)
    (hc : content = pre ++ (m ++ rest)) (hpos : pos = pre.length)
    (h : MalformedRecord parse sp m rest err) :
    extract_loop parse content sp pos objs diags
      = extract_loop parse content sp (pre.length + m.length) objs
          (diags ++ [(errorParseMsg pre.length
              (pre.length + (m.length - JSON_END_PATTERN.length)) err,
            create_error_snippet m)]) := by
  subst hc
  subst hpos
  exact extract_loop_step_err parse sp pre m rest err objs diags h

theorem extract_chain2 (parse : ParseFn) (sp content pre tail : Str) (pos : Nat)
    (rs : List (Str × Json)) (objs : List Json) (diags : List Diag)
    (hc : content = pre ++ (chainText rs ++ tail)) (hpos : pos = pre.length)
    (h : WFChain parse sp rs tail) :
    extract_loop parse content sp pos objs diags
      = extract_loop parse content sp (pre.length + (chainText rs).length)
          (objs ++ rs.map Prod.snd) diags := by
  subst hc
  subst hpos
  exact extract_chain parse sp rs pre tail objs diags h


theorem foldr_max_max (xs : List Nat) : ∀ (a b : Nat),
    xs.foldr Nat.max (Nat.max a b) = Nat.max a (xs.foldr Nat.max b) := by
  induction xs with
  | nil => intro a b; rfl
  | cons x l ih =>
    intro a b
    simp only [List.foldr_cons]
    rw [ih a b]
    exact Nat.max_left_comm x a (l.foldr Nat.max b)

theorem foldl_max_eq_foldr (xs : List Nat) : ∀ (a : Nat),
    xs.foldl Nat.max a = xs.foldr Nat.max a := by
  induction xs with
  | nil => intro a; rfl
  | cons x l ih =>
    intro a
    simp only [List.foldl_cons, List.foldr_cons]
    rw [ih (Nat.max a x)]
    rw [show Nat.max a x = Nat.max x a from Nat.max_comm a x]
    exact foldr_max_max l x a

/-! ## Helpers for lists of primitive elements -/

theorem create_array_key_inj (p : Str) (i j : Nat)
    (h : create_array_key p i = create_array_key p j) : i = j := by
  unfold create_array_key at h
  rw [List.append_assoc (p ++ ARRAY_PREFIX) (natToStr i) ARRAY_SUFFIX] at h
  rw [List.append_assoc (p ++ ARRAY_PREFIX) (natToStr j) ARRAY_SUFFIX] at h
  have h2 := List.append_cancel_left h
  exact natToStr_inj i j (br_decode (natToStr i) (natToStr_no_rbracket i) (natToStr j)
    (natToStr_no_rbracket j) [] [] h2).1

theorem entriesItems_prim_keys : ∀ (rest : List Json) (item : Json) (p : Str) (i : Nat),
    isPrim item = true → (∀ x ∈ rest, isPrim x = true) →
    (entriesItems item rest p i).map Prod.fst
      = (List.range' i (rest.length + 1)).map (fun j => create_array_key p j) := by
  intro rest
  induction rest with
  | nil =>
    intro item p i hitem _
    rw [show entriesItems item [] p i = entriesJ item (create_array_key p i) by
        simp [entriesItems]]
    have : (entriesJ item (create_array_key p i)).map Prod.fst = [create_array_key p i] := by
      cases item with
      | null => simp [entriesJ]
      | bool b => simp [entriesJ]
      | num n => simp [entriesJ]
      | str s => simp [entriesJ]
      | arr xs => simp [isPrim] at hitem
      | obj kvs => simp [isPrim] at hitem
    rw [this]
    simp
  | cons y rest2 ih =>
    intro item p i hitem hrest
    rw [show entriesItems item (y :: rest2) p i
          = entriesJ item (create_array_key p i) ++ entriesItems y rest2 p (i + 1) by
        simp [entriesItems]]
    have h1 : (entriesJ item (create_array_key p i)).map Prod.fst = [create_array_key p i] := by
      cases item with
      | null => simp [entriesJ]
      | bool b => simp [entriesJ]
      | num n => simp [entriesJ]
      | str s => simp [entriesJ]
      | arr xs => simp [isPrim] at hitem
      | obj kvs => simp [isPrim] at hitem
    rw [List.map_append, h1]
    rw [ih y p (i + 1) (hrest y (by simp)) (fun x hx => hrest x (by simp [hx]))]
    rw [show (y :: rest2).length + 1 = (rest2.length + 1) + 1 from by simp]
    conv_rhs => rw [List.range'_succ, List.map_cons]
    simp only [List.singleton_append]

theorem flatten_list_prim_keys (p : Str) (xs : List Json) (hne : xs ≠ [])
    (hprim : ∀ x ∈ xs, isPrim x = true) :
    (flatten_list xs p []).map Prod.fst
      = (List.range xs.length).map (fun i => create_array_key p i) := by
  cases xs with
  | nil => exact absurd rfl hne
  | cons x rest =>
    rw [flatten_list_entries]
    rw [show entriesJ (Json.arr (x :: rest)) p = entriesItems x rest p 0 by simp [entriesJ]]
    have hkeys := entriesItems_prim_keys rest x p 0 (hprim x (by simp))
      (fun y hy => hprim y (by simp [hy]))
    have hnodup : ((entriesItems x rest p 0).map Prod.fst).Nodup := by
      rw [hkeys]
      refine List.Nodup.map ?_ (List.nodup_range' 0 (rest.length + 1))
      intro a b hab
      exact create_array_key_inj p a b hab
    rw [insertAll_eq_append [] _ (by simpa using hnodup)]
    simp only [List.nil_append]
    rw [hkeys, List.range_eq_range']
    simp

/-! ## The claims -/

/-- C2 counterexample: flattening the empty object yields the empty mapping,
    so flattening is not productive on every Structural Value. -/
theorem claim2_cex : flatten_json (Json.obj []) DEFAULT_VALUE = [] := by
  simp [flatten_json, flatten_dict]

/-- C2 (amended): flattening is total, and flatten(V) is non-empty exactly
    when V produces an entry: V is a primitive, an empty list, or a container
    one of whose members produces an entry.  In particular the empty object
    (and any container holding only such values) flattens to the empty
    mapping. -/
theorem claim2_amended (v : Json) :
    flatten_json v DEFAULT_VALUE ≠ [] ↔ producesEntry v = true := by
  rw [flatten_json_entries]
  constructor
  · intro h
    by_cases hp : producesEntry v = true
    · exact hp
    · exfalso
      have hp' : producesEntry v = false := by
        cases hpe : producesEntry v
        · rfl
        · exact absurd hpe hp
      rw [← entriesJ_nil_iff v DEFAULT_VALUE] at hp'
      rw [hp'] at h
      exact h (insertAll_nil [])
  · intro h hc
    rw [insertAll_nil_eq_nil_iff] at hc
    rw [entriesJ_nil_iff] at hc
    rw [h] at hc
    simp at hc

/-- C2 witness: the amended characterization at a concrete primitive. -/
theorem claim2_witness :
    flatten_json (Json.num 3) DEFAULT_VALUE ≠ [] ↔ producesEntry (Json.num 3) = true :=
  claim2_amended (Json.num 3)

/-- C3 counterexample: a non-empty list whose element is itself a list does
    not flatten to the keys P[0]..P[N-1]; the nested element recurses and
    contributes P[0][0] and P[0][1] instead. -/
theorem claim3_cex :
    (flatten_list [Json.arr [Json.num 1, Json.num 2]] ['a'] []).map Prod.fst
      ≠ [create_array_key ['a'] 0] := by
  simp [flatten_list, flatten_items, process_list_item, dictInsert, create_array_key,
    natToStr, natDigitsRev, Nat.digitChar, ARRAY_PREFIX, ARRAY_SUFFIX]

/-- C3 (amended): key synthesis follows the stated rules, with the list rule
    restricted to primitive elements: an object entry's child key is
    parent ++ separator ++ key when the parent key is non-empty and the key
    alone otherwise; an empty list at path P flattens to the single entry
    {P: the empty-array sentinel}; a non-empty list of N primitive elements at
    path P flattens to exactly the keys P[0] .. P[N-1] in index order
    (container elements instead recurse with P[i] as their parent key). -/
theorem claim3_amended :
    (∀ (p k : Str) (v : Json), isPrim v = true →
      flatten_dict [(k, v)] p []
        = [(if p = [] then k else p ++ DICT_SEPARATOR ++ k, v)]) ∧
    (∀ (p : Str), flatten_list [] p [] = [(p, Json.str EMPTY_ARRAY)]) ∧
    (∀ (p : Str) (xs : List Json), xs ≠ [] → (∀ x ∈ xs, isPrim x = true) →
      (flatten_list xs p []).map Prod.fst
        = (List.range xs.length).map (fun i => create_array_key p i)) := by
  refine ⟨?_, ?_, ?_⟩
  · intro p k v hv
    cases v with
    | null => simp [flatten_dict, dictInsert, childKey]
    | bool b => simp [flatten_dict, dictInsert, childKey]
    | num n => simp [flatten_dict, dictInsert, childKey]
    | str s => simp [flatten_dict, dictInsert, childKey]
    | arr xs => simp [isPrim] at hv
    | obj kvs => simp [isPrim] at hv
  · intro p
    simp [flatten_list, dictInsert]
  · exact flatten_list_prim_keys

/-- C3 witness: the three synthesis rules at concrete inputs. -/
theorem claim3_witness :
    flatten_dict [(['k'], Json.num 7)] ['x'] []
      = [(if (['x'] : Str) = [] then ['k'] else ['x'] ++ DICT_SEPARATOR ++ ['k'], Json.num 7)] ∧
    flatten_list [] ['x'] [] = [(['x'], Json.str EMPTY_ARRAY)] ∧
    (flatten_list [Json.num 1, Json.num 2] ['x'] []).map Prod.fst
      = (List.range ([Json.num 1, Json.num 2].length)).map
          (fun i => create_array_key ['x'] i) :=
  ⟨claim3_amended.1 ['x'] ['k'] (Json.num 7) (by simp [isPrim]),
   claim3_amended.2.1 ['x'],
   claim3_amended.2.2 ['x'] [Json.num 1, Json.num 2] (by simp)
     (by intro x hx
         simp only [List.mem_cons, List.not_mem_nil, or_false] at hx
         rcases hx with rfl | rfl <;> simp [isPrim])⟩

/-- C6 counterexample: with rows [{b: 22}, {}] the computed width of column b
    is 5, because pandas stringifies the missing cell as the three-character
    text nan, whereas the claimed formula (missing cell counts as the empty
    default) gives 4. -/
theorem claim6_cex :
    calculate_column_width [[(['b'], ['2', '2'])], []] ['b'] = 5 ∧
    width_per_claim [[(['b'], ['2', '2'])], []] ['b'] = 4 ∧
    calculate_column_width [[(['b'], ['2', '2'])], []] ['b']
      ≠ width_per_claim [[(['b'], ['2', '2'])], []] ['b'] := by
  refine ⟨by decide, by decide, by decide⟩

/-- C6 (amended): for every non-empty sequence of Assembled Rows and every
    column C, the computed width of C equals max(length of the column name,
    maximum over all rows of the length of that row's stringified value for C,
    treating a row that lacks C as holding the three-character text nan that
    pandas produces for the missing cell) plus the padding constant 2. -/
theorem claim6_amended (rows : List Row) (col : Str) (h : rows ≠ []) :
    calculate_column_width rows col = width_with_nan rows col := by
  simp only [calculate_column_width, width_with_nan]
  rw [foldl_max_eq_foldr]
  exact congrArg (fun m => m + COLUMN_PADDING) (Nat.max_comm _ _)

/-- C6 witness: the amended width formula at a concrete row set. -/
theorem claim6_witness :
    calculate_column_width [[(['b'], ['2', '2'])], []] ['b']
      = width_with_nan [[(['b'], ['2', '2'])], []] ['b'] :=
  claim6_amended [[(['b'], ['2', '2'])], []] ['b'] (by decide)

/-- C7 counterexample: the value {a: {b: 1}, a.b: 2} synthesizes the key a.b
    twice, and the second entry overwrites the first in the flattened row, so
    entries can collide and be dropped. -/
theorem claim7_cex :
    (entriesJ (Json.obj [(['a'], Json.obj [(['b'], Json.num 1)]),
        (['a', '.', 'b'], Json.num 2)]) DEFAULT_VALUE).map Prod.fst
      = [['a', '.', 'b'], ['a', '.', 'b']] ∧
    flatten_json (Json.obj [(['a'], Json.obj [(['b'], Json.num 1)]),
        (['a', '.', 'b'], Json.num 2)]) DEFAULT_VALUE
      = [(['a', '.', 'b'], Json.num 2)] := by
  constructor
  · simp [entriesJ, entriesD, childKey, DEFAULT_VALUE, DICT_SEPARATOR]
  · simp [flatten_json, flatten_dict, childKey, dictInsert, DEFAULT_VALUE, DICT_SEPARATOR]

/-- C7 (amended): for every Structural Value whose object keys are all
    non-empty, free of the separator dot and the opening bracket, and unique
    within their object, no two entries of its Flattened Row collide on the
    same synthesized key and no entry is dropped or overwritten: the flattened
    row is exactly the entry list in traversal order. -/
theorem claim7_amended (v : Json) (h : cleanJ v = true) :
    ((entriesJ v DEFAULT_VALUE).map Prod.fst).Nodup ∧
    flatten_json v DEFAULT_VALUE = entriesJ v DEFAULT_VALUE := by
  refine ⟨entriesJ_keys_nodup v h, ?_⟩
  rw [flatten_json_entries]
  have := insertAll_eq_append [] (entriesJ v DEFAULT_VALUE)
    (by simpa using entriesJ_keys_nodup v h)
  simpa using this

/-- C7 witness: the amended distinctness property at a concrete nested value
    with clean keys. -/
theorem claim7_witness :
    ((entriesJ (Json.obj [(['a'], Json.obj [(['b'], Json.num 1)]), (['c'], Json.num 2)])
        DEFAULT_VALUE).map Prod.fst).Nodup ∧
    flatten_json (Json.obj [(['a'], Json.obj [(['b'], Json.num 1)]), (['c'], Json.num 2)])
        DEFAULT_VALUE
      = entriesJ (Json.obj [(['a'], Json.obj [(['b'], Json.num 1)]), (['c'], Json.num 2)])
          DEFAULT_VALUE :=
  claim7_amended (Json.obj [(['a'], Json.obj [(['b'], Json.num 1)]), (['c'], Json.num 2)])
    (by simp [cleanJ, cleanD])

/-- C8: the Row Assembler maps each flattened entry with a Null leaf to the
    default empty-string text and every other leaf (booleans, numbers, text,
    and the empty-array sentinel, which is itself text) to its standard text
    form, keeping every key of the Flattened Row; flattened leaves are never
    containers. -/
theorem claim8_row_assembler (r : Json) :
    convert_to_excel_rows [r]
      = [(flatten_json r DEFAULT_VALUE).map (fun kv => (kv.1, stringify_value kv.2))] ∧
    ((flatten_json r DEFAULT_VALUE).map
        (fun kv => (kv.1, stringify_value kv.2))).map Prod.fst
      = (flatten_json r DEFAULT_VALUE).map Prod.fst ∧
    ∀ kv ∈ flatten_json r DEFAULT_VALUE,
      isPrim kv.2 = true ∧
      (kv.2 = Json.null → stringify_value kv.2 = DEFAULT_VALUE) ∧
      (∀ b, kv.2 = Json.bool b →
        stringify_value kv.2 = (if b then ['T', 'r', 'u', 'e'] else ['F', 'a', 'l', 's', 'e'])) ∧
      (∀ n, kv.2 = Json.num n → stringify_value kv.2 = intToStr n) ∧
      (∀ s, kv.2 = Json.str s → stringify_value kv.2 = s) := by
  refine ⟨by simp [convert_to_excel_rows], by simp, ?_⟩
  intro kv hkv
  refine ⟨flatten_json_values_prim r DEFAULT_VALUE kv hkv, ?_, ?_, ?_, ?_⟩
  · intro hnull
    rw [hnull]
    simp [stringify_value]
  · intro b hb
    rw [hb]
    cases b <;> simp [stringify_value, pyStr]
  · intro n hn
    rw [hn]
    simp [stringify_value, pyStr]
  · intro s hs
    rw [hs]
    simp [stringify_value, pyStr]

/-- C8 witness: the assembler rules applied to a concrete flattened entry. -/
theorem claim8_witness :
    isPrim (Json.null) = true ∧
    (Json.null = Json.null → stringify_value Json.null = DEFAULT_VALUE) ∧
    (∀ b, Json.null = Json.bool b →
      stringify_value Json.null = (if b then ['T', 'r', 'u', 'e'] else ['F', 'a', 'l', 's', 'e'])) ∧
    (∀ n, Json.null = Json.num n → stringify_value Json.null = intToStr n) ∧
    (∀ s, Json.null = Json.str s → stringify_value Json.null = s) := by
  have := (claim8_row_assembler (Json.obj [(['a'], Json.null)])).2.2 (['a'], Json.null)
    (by simp [flatten_json, flatten_dict, dictInsert, childKey, DEFAULT_VALUE])
  simpa using this

/-- C9: flattening is idempotent on already-flat input: an Object of
    primitives with unique keys is a fixed point of flatten with the empty
    parent key, and any flatten result, reinterpreted as an Object of
    primitives, is likewise a fixed point. -/
theorem claim9_idempotent :
    (∀ (kvs : List (Str × Json)), (kvs.map Prod.fst).Nodup →
      (∀ kv ∈ kvs, isPrim kv.2 = true) →
      flatten_json (Json.obj kvs) DEFAULT_VALUE = kvs) ∧
    ∀ (v : Json), flatten_json (Json.obj (flatten_json v DEFAULT_VALUE)) DEFAULT_VALUE
      = flatten_json v DEFAULT_VALUE := by
  have main : ∀ (kvs : List (Str × Json)), (kvs.map Prod.fst).Nodup →
      (∀ kv ∈ kvs, isPrim kv.2 = true) →
      flatten_json (Json.obj kvs) DEFAULT_VALUE = kvs := by
    intro kvs hnd hprim
    rw [flatten_json_entries]
    rw [show entriesJ (Json.obj kvs) DEFAULT_VALUE = entriesD kvs [] by
        simp [entriesJ, DEFAULT_VALUE]]
    rw [entriesD_prim_root kvs hprim]
    have := insertAll_eq_append [] kvs (by simpa using hnd)
    simpa using this
  refine ⟨main, ?_⟩
  intro v
  exact main (flatten_json v DEFAULT_VALUE) (flatten_json_keys_nodup v DEFAULT_VALUE)
    (flatten_json_values_prim v DEFAULT_VALUE)

/-- C9 witness: the fixed point at concrete flat and nested inputs. -/
theorem claim9_witness :
    flatten_json (Json.obj [(['a'], Json.num 1)]) DEFAULT_VALUE = [(['a'], Json.num 1)] ∧
    flatten_json (Json.obj (flatten_json (Json.arr [Json.num 2]) DEFAULT_VALUE)) DEFAULT_VALUE
      = flatten_json (Json.arr [Json.num 2]) DEFAULT_VALUE :=
  ⟨claim9_idempotent.1 [(['a'], Json.num 1)] (by simp)
      (by intro kv hkv; simp only [List.mem_singleton] at hkv; rw [hkv]; simp [isPrim]),
   claim9_idempotent.2 (Json.arr [Json.num 2])⟩

/-- C10: marker-mode extraction does not depend on the supplied end-marker
    argument: record boundaries are always computed from the fixed literal
    JSON_END_PATTERN, so for any corpus, any start pattern, any parse oracle
    and any two end-pattern values the results coincide. -/
theorem claim10_end_marker_independent (parse : ParseFn) (content sp e1 e2 : Str) :
    extract_multiple_objects parse content sp e1
      = extract_multiple_objects parse content sp e2 := rfl

/-- C1: in marker mode, a corpus that is the concatenation of K well-formed
    marker-delimited records with no malformed content extracts to exactly the
    K parsed Structural Values, in corpus order, with no diagnostics.
    Well-formedness of each record is stated against the end pattern the
    scanner actually uses (the JSON_END_PATTERN literal), which is also the
    end marker the program itself supplies; by claim10 the result does not
    depend on the end-marker argument. -/
theorem claim1_marker_chain (parse : ParseFn) (sp ep : Str) (rs : List (Str × Json))
    (h : WFChain parse sp rs []) :
    extract_multiple_objects parse (chainText rs) sp ep = (rs.map Prod.snd, []) := by
  unfold extract_multiple_objects INITIAL_POSITION
  rw [extract_chain2 parse sp (chainText rs) [] [] 0 rs [] [] (by simp) rfl h]
  rw [extract_loop_at_end parse (chainText rs) sp _ _ _ (by simp)]
  simp

/-- C4: a start-marker occurrence with no end-pattern occurrence anywhere
    after it stops extraction: the result is exactly the records extracted
    before it, all remaining corpus content is excluded, and no diagnostic is
    emitted for the truncation. -/
theorem claim4_unmatched_start (parse : ParseFn) (sp ep tail : Str)
    (rs : List (Str × Json)) (s : Nat)
    (hchain : WFChain parse sp rs tail)
    (hstart : pyFind (chainText rs ++ tail) sp (chainText rs).length = some s)
    (hend : pyFind (chainText rs ++ tail) JSON_END_PATTERN s = none) :
    extract_multiple_objects parse (chainText rs ++ tail) sp ep = (rs.map Prod.snd, []) := by
  unfold extract_multiple_objects INITIAL_POSITION
  rw [extract_chain2 parse sp (chainText rs ++ tail) [] tail 0 rs [] [] (by simp) rfl hchain]
  rw [extract_loop_eq_stop parse (chainText rs ++ tail) sp _ _ _
    (process_json_item_noEnd parse (chainText rs ++ tail) sp _ s (by simpa using hstart) hend)]
  simp

/-- C5: a corpus of a well-formed record, then a malformed marker-delimited
    record, then another well-formed record extracts to exactly the two
    parsed Structural Values plus exactly one diagnostic, carrying the
    malformed substring's start position and end-marker position, the
    parser's error detail, and the truncated preview produced by
    create_error_snippet; the malformed record does not abort the run. -/
theorem claim5_malformed_between (parse : ParseFn) (sp ep w1 m w2 err : Str)
    (v1 v2 : Json)
    (h1 : WFRecord parse sp w1 (m ++ w2) v1)
    (hm : MalformedRecord parse sp m w2 err)
    (h2 : WFRecord parse sp w2 [] v2) :
    extract_multiple_objects parse (w1 ++ (m ++ w2)) sp ep
      = ([v1, v2],
         [(errorParseMsg w1.length (w1.length + (m.length - JSON_END_PATTERN.length)) err,
           create_error_snippet m)]) := by
  unfold extract_multiple_objects INITIAL_POSITION
  rw [extract_loop_step_ok2 parse sp (w1 ++ (m ++ w2)) [] w1 (m ++ w2) 0 v1 [] []
    (by simp) rfl h1]
  rw [extract_loop_step_err2 parse sp (w1 ++ (m ++ w2)) w1 m w2 err
    (([] : Str).length + w1.length) ([] ++ [v1]) [] rfl (by simp) hm]
  rw [extract_loop_step_ok2 parse sp (w1 ++ (m ++ w2)) (w1 ++ m) w2 []
    (w1.length + m.length) v2 ([] ++ [v1])
    ([] ++ [(errorParseMsg w1.length (w1.length + (m.length - JSON_END_PATTERN.length)) err,
      create_error_snippet m)])
    (by simp) (by simp) h2]
  rw [extract_loop_at_end parse (w1 ++ (m ++ w2)) sp _ _ _
    (by simp only [List.length_append]; omega)]
  simp

/-- C1 witness: a two-record corpus extracts to exactly its two values in
    order, with no diagnostics. -/
theorem claim1_witness :
    extract_multiple_objects parseOracle (chainText [(wGood, vGood), (wGood, vGood)])
        spGood JSON_END_PATTERN
      = ([vGood, vGood], []) :=
  claim1_marker_chain parseOracle spGood JSON_END_PATTERN [(wGood, vGood), (wGood, vGood)]
    ⟨⟨by decide, by decide, by decide, rfl, rfl⟩,
     ⟨by decide, by decide, by decide, rfl, rfl⟩, trivial⟩

/-- C4 witness: a record followed by an unmatched start marker extracts to
    just the record, silently. -/
theorem claim4_witness :
    extract_multiple_objects parseOracle (chainText [(wGood, vGood)] ++ tailBad)
        spGood JSON_END_PATTERN
      = ([vGood], []) :=
  claim4_unmatched_start parseOracle spGood JSON_END_PATTERN tailBad [(wGood, vGood)] 16
    ⟨⟨by decide, by decide, by decide, rfl, rfl⟩, trivial⟩
    (by decide) (by decide)

/-- C5 witness: a malformed record between two well-formed ones yields the
    two values and one diagnostic. -/
theorem claim5_witness :
    extract_multiple_objects parseOracle (wGood ++ (mBad ++ wGood)) spGood JSON_END_PATTERN
      = ([vGood, vGood],
         [(errorParseMsg wGood.length
             (wGood.length + (mBad.length - JSON_END_PATTERN.length)) errVal,
           create_error_snippet mBad)]) :=
  claim5_malformed_between parseOracle spGood JSON_END_PATTERN wGood mBad wGood errVal
    vGood vGood
    ⟨by decide, by decide, by decide, rfl, rfl⟩
    ⟨by decide, by decide, by decide, rfl⟩
    ⟨by decide, by decide, by decide, rfl, rfl⟩

end J2X
